import Mathlib

/-!
Verification of the brotli-lib TypeScript codec (shallow embedding).

Definitions in this file are translated from the repository sources:
* `src/src/encode/metablock.ts` (block-length table, serializer, uncompressed framing)
* `src/src/encode/command.ts` (length codes, command construction)
* `src/src/encode/encode.ts` (top-level dispatch, uncompressed encoder)
* `src/src/encode/backward-references.ts` (distance cache)
* `src/src/encode/hash-simple.ts`, `hash-chains.ts`, `hash-binary-tree.ts` (hasher sentinels)
* the bit writer (`write_bits` port) and the decoder engine `src/src/decode/engine.ts`.

JavaScript numbers are modelled as `Nat` (or `Int` where negative values occur);
all values handled by the modelled code paths stay far below 2^31, so the JS
int32 coercions of `&`, `|`, `<<`, `>>>` are the identity on them.  The decoder
bit reader (halfword accumulator machinery) is modelled as an LSB-first cursor
over the bit sequence of the input bytes, which is its specified semantics.
-/

namespace Brotli

/-! ## Bit-sequence utilities (LSB-first, as used by both bit reader and writer) -/

/-- Low `n` bits of `v`, least significant first. -/
def toBits : Nat → Nat → List Bool
  | 0, _ => []
  | n + 1, v => (v % 2 = 1) :: toBits n (v / 2)

/-- Value of a bit list, least significant first. -/
def ofBits : List Bool → Nat
  | [] => 0
  | b :: bs => (if b then 1 else 0) + 2 * ofBits bs

/-- Read `n` bits from the front of a bit list (missing bits read as 0,
matching the zero-filled refill buffer of the decoder). -/
def readBitsL (n : Nat) (bs : List Bool) : Nat × List Bool :=
  (ofBits (bs.take n), bs.drop n)

/-- Pack a bit list into bytes, LSB-first within each byte; a final partial
byte is padded with zero bits (`BitWriter.finish`). -/
def bitsToBytes : List Bool → List Nat
  | [] => []
  | b :: bs => ofBits ((b :: bs).take 8) :: bitsToBytes ((b :: bs).drop 8)
termination_by bs => bs.length
decreasing_by
  simp only [List.length_drop, List.length_cons]
  omega

/-- Bytes to their bit sequence, LSB-first within each byte. -/
def bytesToBits (bytes : List Nat) : List Bool :=
  bytes.flatMap (toBits 8)

/-! ## C8: window-bits field (`encodeWindowBits` from the bit writer,
`decodeWindowBits` from `src/src/decode/engine.ts` lines 91-124) -/

/-- From the encoder bit writer: `encodeWindowBits(lgwin, largeWindow)`.
Returns `(value, bits)`. -/
def encodeWindowBits (lgwin : Nat) (largeWindow : Bool) : Nat × Nat :=
  if largeWindow then
    (((lgwin &&& 0x3F) <<< 8) ||| 0x11, 14)
  else if lgwin = 16 then
    (0, 1)
  else if lgwin = 17 then
    (1, 7)
  else if 17 < lgwin ∧ lgwin ≤ 24 then
    (((lgwin - 17) <<< 1) ||| 0x01, 4)
  else
    (((lgwin - 8) <<< 4) ||| 0x01, 7)

/-- Decoder `decodeWindowBits` over the bit stream, in the configuration used
by `brotliDecode` (`isLargeWindow = 0`, so the large-window escape yields the
error value `-1`).  Returns the window bits and the remaining bit stream. -/
def decodeWindowBits (bs : List Bool) : Int × List Bool :=
  let r1 := readBitsL 1 bs
  if r1.1 = 0 then (16, r1.2)
  else
    let r3 := readBitsL 3 r1.2
    if r3.1 ≠ 0 then ((17 + r3.1 : Nat), r3.2)
    else
      let r3b := readBitsL 3 r3.2
      if r3b.1 ≠ 0 then
        if r3b.1 = 1 then (-1, r3b.2)
        else ((8 + r3b.1 : Nat), r3b.2)
      else (17, r3b.2)

/-- The RFC 7932 WBITS layout exactly as the specification words it:
a single `0` bit for lgwin 16; 7 bits `0000001` for 17; 4 bits
`(lgwin-17)<<1 | 1` for 18..24; 7 bits `(lgwin-8)<<4 | 1` for 10..15. -/
def wbitsRfcLayout (lgwin : Nat) : Nat × Nat :=
  if lgwin = 16 then (0, 1)
  else if lgwin = 17 then (1, 7)
  else if 18 ≤ lgwin ∧ lgwin ≤ 24 then (((lgwin - 17) <<< 1) ||| 1, 4)
  else (((lgwin - 8) <<< 4) ||| 1, 7)

/-! ## C4: block-length prefix code
Encoder side: `BLOCK_LENGTH_PREFIX_RANGES`, `blockLengthPrefixCode`,
`getBlockLengthPrefixCode` from `src/src/encode/metablock.ts` lines 37-131
(the canonical table copy cited by the claim).
Decoder side: `BLOCK_LENGTH_OFFSET`, `BLOCK_LENGTH_N_BITS` from
`src/src/decode/engine.ts` lines 20-21, used by `readBlockLength`:
`BLOCK_LENGTH_OFFSET[code] + readBits(BLOCK_LENGTH_N_BITS[code])`. -/

/-- Encoder table: `(offset, nbits)` pairs. -/
def BLOCK_LENGTH_PREFIX_RANGES : List (Nat × Nat) :=
  [(1, 2), (5, 2), (9, 2), (13, 2), (17, 3), (25, 3), (33, 3), (41, 3),
   (49, 4), (65, 4), (81, 4), (97, 4), (113, 5), (145, 5), (177, 5), (209, 5),
   (241, 6), (305, 6), (369, 7), (497, 8), (753, 9), (1265, 10), (2289, 11),
   (4337, 12), (8433, 13), (16625, 24)]

def blRangeOffset (i : Nat) : Nat := (BLOCK_LENGTH_PREFIX_RANGES.getD i (0, 0)).1

def blRangeNBits (i : Nat) : Nat := (BLOCK_LENGTH_PREFIX_RANGES.getD i (0, 0)).2

def NUM_BLOCK_LEN_SYMBOLS : Nat := 26

/-- The `while` loop of `blockLengthPrefixCode`:
`while (code < 25 && len >= RANGES[code+1].offset) code++`. -/
def blpcLoop (len code : Nat) : Nat :=
  if code < NUM_BLOCK_LEN_SYMBOLS - 1 ∧ blRangeOffset (code + 1) ≤ len then
    blpcLoop len (code + 1)
  else code
termination_by NUM_BLOCK_LEN_SYMBOLS - code
decreasing_by
  rename_i h
  simp [NUM_BLOCK_LEN_SYMBOLS] at h ⊢
  omega

/-- `blockLengthPrefixCode(len)`: jump-start index then linear scan. -/
def blockLengthPrefixCode (len : Nat) : Nat :=
  blpcLoop len
    (if 177 ≤ len then (if 753 ≤ len then 20 else 14) else (if 41 ≤ len then 7 else 0))

/-- `getBlockLengthPrefixCode(len)` returns `(code, nbits, extra)`. -/
def getBlockLengthPrefixCode (len : Nat) : Nat × Nat × Nat :=
  let code := blockLengthPrefixCode len
  (code, blRangeNBits code, len - blRangeOffset code)

/-- Decoder table of block-length offsets. -/
def BLOCK_LENGTH_OFFSET : List Nat :=
  [1, 5, 9, 13, 17, 25, 33, 41, 49, 65, 81, 97, 113, 145, 177, 209, 241, 305,
   369, 497, 753, 1265, 2289, 4337, 8433, 16625]

/-- Decoder table of block-length extra-bit widths. -/
def BLOCK_LENGTH_N_BITS : List Nat :=
  [2, 2, 2, 2, 3, 3, 3, 3, 4, 4, 4, 4, 5, 5, 5, 5, 6, 6, 7, 8, 9, 10, 11, 12, 13, 24]

/-! ## C9: hasher empty-slot sentinels
From `src/src/encode/hash-simple.ts` (reset/prepare fill 0),
`src/src/encode/hash-chains.ts` (reset fills 0), and
`src/src/encode/hash-binary-tree.ts` (constructor/reset fill `invalidPos`). -/

/-- JavaScript `>>> 0` (ToUint32). -/
def jsToUint32 (i : Int) : Nat := (i.emod (2 ^ 32)).toNat

/-- `SimpleHasher.reset`: `this.buckets.fill(0)` over `1 << bucketBits` slots. -/
def simpleHasherResetBuckets (bucketBits : Nat) : List Nat :=
  List.replicate (1 <<< bucketBits) 0

/-- `HashChainHasher.reset`: `this.buckets.fill(0)`. -/
def hashChainResetBuckets (bucketBits : Nat) : List Nat :=
  List.replicate (1 <<< bucketBits) 0

/-- `hash-binary-tree.ts`: `BUCKET_BITS = 17`. -/
def BUCKET_BITS : Nat := 17

/-- `this.windowMask = (1 << lgwin) - 1`. -/
def binaryTreeWindowMask (lgwin : Nat) : Nat := (1 <<< lgwin) - 1

/-- `this.invalidPos = (0 - this.windowMask) >>> 0`. -/
def binaryTreeInvalidPos (lgwin : Nat) : Nat :=
  jsToUint32 (0 - (binaryTreeWindowMask lgwin : Int))

/-- `BinaryTreeHasher.reset`: `this.buckets.fill(this.invalidPos)`. -/
def binaryTreeResetBuckets (lgwin : Nat) : List Nat :=
  List.replicate (1 <<< BUCKET_BITS) (binaryTreeInvalidPos lgwin)

/-! ## C5: distance ring buffer updates
Decoder distance phase from `src/src/decode/engine.ts` lines 1323-1369;
encoder distance cache from `src/src/encode/backward-references.ts`. -/

def DISTANCE_SHORT_CODE_INDEX_OFFSET : List Nat :=
  [0, 3, 2, 1, 0, 0, 0, 0, 0, 0, 3, 3, 3, 3, 3, 3]

def DISTANCE_SHORT_CODE_VALUE_OFFSET : List Int :=
  [0, 0, 0, 0, -1, 1, -2, 2, -3, 3, -1, 1, -2, 2, -3, 3]

/-- Result of the decoder's distance phase: the (first four entries of the)
distance ring, the rotating index, and the decoded distance. -/
structure DistPhase where
  rings : List Int
  distRbIdx : Nat
  distance : Int
deriving DecidableEq

/-- Outcome of the distance phase: hard error (-12), hand-off to the
dictionary engine (`runningState = 9`, ring untouched), or a normal distance. -/
inductive DistPhaseOut where
  | err (code : Int)
  | dict (r : DistPhase)
  | ok (r : DistPhase)
deriving DecidableEq

/-- Decoder distance phase for a freshly decoded distance symbol
`distanceCode ≥ 0` (engine lines 1323-1369).  For symbols `≥ 16` the distance
is `distOffset[code] + (extra << npostfix)`; the `distOffset` table (filled by
`calculateDistanceLut`) is passed as a parameter since its contents do not
affect the ring-update discipline under study. -/
def decodeDistancePhase (rings : List Int) (distRbIdx : Nat) (distanceCode : Nat)
    (extra : Nat) (distOffsetTable : Nat → Int) (npostfixBits : Nat)
    (maxDistance : Int) : DistPhaseOut :=
  let distance : Int :=
    if distanceCode < 16 then
      rings.getD ((distRbIdx + DISTANCE_SHORT_CODE_INDEX_OFFSET.getD distanceCode 0) % 4) 0
        + DISTANCE_SHORT_CODE_VALUE_OFFSET.getD distanceCode 0
    else
      distOffsetTable distanceCode + (extra <<< npostfixBits : Nat)
  if distanceCode < 16 ∧ distance < 0 then .err (-12)
  else if distance > maxDistance then .dict ⟨rings, distRbIdx, distance⟩
  else if 0 < distanceCode then
    let idx := (distRbIdx + 1) % 4
    .ok ⟨rings.set idx distance, idx, distance⟩
  else .ok ⟨rings, distRbIdx, distance⟩

/-- Encoder tables from `backward-references.ts`. -/
def DISTANCE_CACHE_INDEX : List Nat :=
  [0, 1, 2, 3, 0, 0, 0, 0, 0, 0, 1, 1, 1, 1, 1, 1]

def DISTANCE_CACHE_OFFSET : List Int :=
  [0, 0, 0, 0, -1, 1, -2, 2, -3, 3, -1, 1, -2, 2, -3, 3]

/-- `NUM_DISTANCE_SHORT_CODES` from `enc-constants`. -/
def NUM_DISTANCE_SHORT_CODES : Nat := 16

/-- The scan loop of `distanceToCode` (`for i in 0..15`), with the remaining
iteration count as structural fuel. -/
def distanceToCodeLoop (distance : Int) (distCache : List Int) : Nat → Nat → Int
  | _, 0 => distance + (NUM_DISTANCE_SHORT_CODES : Int) - 1
  | i, fuel + 1 =>
    if i < NUM_DISTANCE_SHORT_CODES then
      let cached := distCache.getD (DISTANCE_CACHE_INDEX.getD i 0) 0
        + DISTANCE_CACHE_OFFSET.getD i 0
      if distance = cached ∧ 0 < cached then (i : Int)
      else distanceToCodeLoop distance distCache (i + 1) fuel
    else distance + (NUM_DISTANCE_SHORT_CODES : Int) - 1

/-- `distanceToCode(distance, distCache)`: 0-15 for a cache match, else
`distance + 15`. -/
def distanceToCode (distance : Int) (distCache : List Int) : Int :=
  distanceToCodeLoop distance distCache 0 NUM_DISTANCE_SHORT_CODES

/-- The cache update after a command is pushed
(`backward-references.ts` lines 86-94): shift in the new distance iff
`distCode > 0`. -/
def updateDistCache (distCode : Int) (distance : Int) (distCache : List Int) : List Int :=
  if 0 < distCode then
    [distance, distCache.getD 0 0, distCache.getD 1 0, distCache.getD 2 0]
  else distCache

/-! ## C6: command prefix versus distance emission
From `src/src/encode/command.ts` (length codes, `combineLengthCodes`,
`createCommand`, `createInsertCommand`) and the distance-emission condition of
`storeMetaBlockTrivial` in `src/src/encode/metablock.ts` line 358. -/

/-- Structural helper for ⌊log₂⌋ (fuel-based so the kernel can evaluate it). -/
def log2Aux : Nat → Nat → Nat
  | 0, _ => 0
  | fuel + 1, n => if n < 2 then 0 else log2Aux fuel (n / 2) + 1

/-- Modelled from the spec: `fast-log.ts` is imported by `command.ts` and
`metablock.ts` but is not among the repository sources; `log2FloorNonZero(n)`
computes ⌊log₂ n⌋ of a nonzero 32-bit integer. -/
def log2FloorNonZero (n : Nat) : Nat := log2Aux n n

/-- `getInsertLengthCode(insertLen)` (insert lengths are nonnegative). -/
def getInsertLengthCode (insertLen : Nat) : Nat :=
  if insertLen < 6 then insertLen
  else if insertLen < 130 then
    ((log2FloorNonZero (insertLen - 2) - 1) <<< 1)
      + ((insertLen - 2) >>> (log2FloorNonZero (insertLen - 2) - 1)) + 2
  else if insertLen < 2114 then log2FloorNonZero (insertLen - 66) + 10
  else if insertLen < 6210 then 21
  else if insertLen < 22594 then 22
  else 23

/-- `getCopyLengthCode(copyLen)`; the encoder only calls it with
`copyLen ≥ 2` (where `Nat` subtraction agrees with JS subtraction). -/
def getCopyLengthCode (copyLen : Nat) : Nat :=
  if copyLen < 10 then copyLen - 2
  else if copyLen < 134 then
    ((log2FloorNonZero (copyLen - 6) - 1) <<< 1)
      + ((copyLen - 6) >>> (log2FloorNonZero (copyLen - 6) - 1)) + 4
  else if copyLen < 2118 then log2FloorNonZero (copyLen - 70) + 12
  else 23

/-- `combineLengthCodes(insCode, copyCode, useLastDistance)`. -/
def combineLengthCodes (insCode copyCode : Nat) (useLastDistance : Bool) : Nat :=
  let bits64 := (copyCode &&& 0x7) ||| ((insCode &&& 0x7) <<< 3)
  if useLastDistance ∧ insCode < 8 ∧ copyCode < 16 then
    if copyCode < 8 then bits64 else bits64 ||| 64
  else
    let offset := 2 * ((copyCode >>> 3) + 3 * (insCode >>> 3))
    let offset2 := (offset <<< 5) + 0x40 + ((0x520D40 >>> offset) &&& 0xC0)
    offset2 ||| bits64

/-- `getLengthCode(insertLen, copyLen, useLastDistance)`. -/
def getLengthCode (insertLen copyLen : Nat) (useLastDistance : Bool) : Nat :=
  combineLengthCodes (getInsertLengthCode insertLen) (getCopyLengthCode copyLen)
    useLastDistance

/-- `prefixEncodeCopyDistance(distanceCode, numDirectCodes, postfixBits)`,
returning `(code, extraBits, nbits)`. -/
def prefixEncodeCopyDist (distanceCode numDirectCodes postfixBits : Nat) :
    Nat × Nat × Nat :=
  if distanceCode < NUM_DISTANCE_SHORT_CODES + numDirectCodes then
    (distanceCode, 0, 0)
  else
    let dist := (1 <<< (postfixBits + 2))
      + (distanceCode - NUM_DISTANCE_SHORT_CODES - numDirectCodes)
    let bucket := log2FloorNonZero dist - 1
    let postfixMask := (1 <<< postfixBits) - 1
    let pfx := dist &&& postfixMask
    let pfxBit := (dist >>> bucket) &&& 1
    let offset := (2 + pfxBit) <<< bucket
    let nbits := bucket - postfixBits
    let code := (nbits <<< 10) |||
      (NUM_DISTANCE_SHORT_CODES + numDirectCodes
        + ((2 * (nbits - 1) + pfxBit) <<< postfixBits) + pfx)
    let extraBits := (dist - offset) >>> postfixBits
    (code, extraBits, nbits)

/-- A command (`command.ts`); the source field names are `cmdPrefix` and
`distPrefix`. -/
structure Command where
  insertLen : Nat
  copyLen : Nat         -- copy length (low 25 bits) | (delta & 0x7F) << 25
  distExtra : Nat
  cmdPrefixCode : Nat   -- combined insert+copy length code (0-703)
  distPrefixPacked : Nat -- distance code (low 10 bits) | nbits << 10
deriving DecidableEq

/-- `createCommand(insertLen, copyLen, copyLenCodeDelta, distanceCode,
numDirectCodes, postfixBits)`. -/
def createCommand (insertLen copyLen : Nat) (copyLenCodeDelta : Int)
    (distanceCode numDirectCodes postfixBits : Nat) : Command :=
  let delta : Nat := (copyLenCodeDelta.emod 128).toNat  -- JS `delta & 0x7F`
  let copyLenEncoded := copyLen ||| (delta <<< 25)
  let pe := prefixEncodeCopyDist distanceCode numDirectCodes postfixBits
  let distPacked := pe.1 ||| (pe.2.2 <<< 10)
  let useLastDistance := (pe.1 &&& 0x3FF) == 0
  let cmdCode := getLengthCode insertLen ((copyLen : Int) + copyLenCodeDelta).toNat
    useLastDistance
  ⟨insertLen, copyLenEncoded, pe.2.1, cmdCode, distPacked⟩

/-- `createInsertCommand(insertLen)`: insert-only command, stored copy length
0 with length-code delta 2. -/
def createInsertCommand (insertLen : Nat) : Command :=
  let copyLenCode := 2
  let insCode := getInsertLengthCode insertLen
  let cmdCode :=
    if insCode < 8 then getLengthCode insertLen copyLenCode true
    else getLengthCode insertLen copyLenCode false
  ⟨insertLen, 0 ||| (2 <<< 25), 0, cmdCode, 0⟩

/-- `commandCopyLen(cmd)`: the low 25 bits. -/
def commandCopyLen (cmd : Command) : Nat := cmd.copyLen &&& 0x1FFFFFF

/-- The serializer (`storeMetaBlockTrivial`, also `storeMetaBlock`) emits a
distance symbol for `cmd` iff `copyLen && cmd.cmdPrefix >= 128`. -/
def storeMetaBlockTrivialEmitsDistance (cmd : Command) : Prop :=
  commandCopyLen cmd ≠ 0 ∧ 128 ≤ cmd.cmdPrefixCode

instance (cmd : Command) : Decidable (storeMetaBlockTrivialEmitsDistance cmd) := by
  unfold storeMetaBlockTrivialEmitsDistance
  infer_instance

/-- The command reuses the last distance: its distance code (low 10 bits of
`distPrefix`) is 0, the decoder's "last distance" short code. -/
def commandReusesLastDistance (cmd : Command) : Prop :=
  cmd.distPrefixPacked &&& 0x3FF = 0

instance (cmd : Command) : Decidable (commandReusesLastDistance cmd) := by
  unfold commandReusesLastDistance
  infer_instance

/-! ## C3: `maxOutputSize` enforcement
`peekDecodedSize` from `src/src/decode/engine.ts` lines 2155-2192 and the
`brotliDecode` wrapper (decode.ts part of the same file, lines 2275-2322).
The engine decoder behind the wrapper is abstracted as a function
`engineDecode : Option Nat → List Nat` from the `outputSize` option to the
decoded bytes. -/

/-- One bit of the input, as `peekDecodedSize` reads it:
`(bytes[bitPos >> 3] >> (bitPos & 7)) & 1`; an out-of-range JS read yields
`undefined`, which the shift coerces to 0. -/
def peekBit (bytes : List Nat) (bitPos : Nat) : Nat :=
  (bytes.getD (bitPos >>> 3) 0 >>> (bitPos &&& 7)) &&& 1

/-- The local `readBits(n)` of `peekDecodedSize` (LSB-first accumulation). -/
def peekReadBits (bytes : List Nat) (bitPos : Nat) : Nat → Nat
  | 0 => 0
  | n + 1 => peekBit bytes bitPos + 2 * peekReadBits bytes (bitPos + 1) n

/-- The window-bits skip of `peekDecodedSize`; `none` is the early `-1`
return on the large-window reserved bit, otherwise the bit position after
the field. -/
def peekSkipWindow (bytes : List Nat) : Option Nat :=
  if peekReadBits bytes 0 1 ≠ 0 then
    if peekReadBits bytes 1 3 = 0 then
      if peekReadBits bytes 4 3 = 1 then
        if peekReadBits bytes 7 1 ≠ 0 then none
        else some 14
      else some 7
    else some 4
  else some 1

/-- The MLEN nibble loop: `metaBlockLength |= readBits(4) << (i * 4)`. -/
def peekMlenLoop (bytes : List Nat) : Nat → Nat → Nat → Nat → Nat
  | 0, _, _, acc => acc
  | count + 1, i, bitPos, acc =>
    peekMlenLoop bytes count (i + 1) (bitPos + 4)
      (acc ||| (peekReadBits bytes bitPos 4 <<< (i * 4)))

/-- `peekDecodedSize(bytes)`: decoded size of a single-metablock stream,
`-1` if unknown (non-last first metablock or metadata), 0 for the empty
last block. -/
def peekDecodedSize (bytes : List Nat) : Int :=
  match peekSkipWindow bytes with
  | none => -1
  | some p =>
    let inputEnd := peekReadBits bytes p 1
    let p := p + 1
    if inputEnd ≠ 0 ∧ peekReadBits bytes p 1 ≠ 0 then 0
    else
      let p := if inputEnd ≠ 0 then p + 1 else p
      let sizeNibbles := peekReadBits bytes p 2 + 4
      let p := p + 2
      if sizeNibbles = 7 then -1
      else
        let metaBlockLength := peekMlenLoop bytes sizeNibbles 0 p 0 + 1
        if inputEnd ≠ 0 then (metaBlockLength : Int) else -1

/-- The wrapper's pre-allocation estimate: `output_size` is set from
`peekDecodedSize` when that is positive. -/
def wrapperOutputSize (buffer : List Nat) : Option Nat :=
  if 0 < peekDecodedSize buffer then some (peekDecodedSize buffer).toNat else none

/-- The `brotliDecode` wrapper (object-options signature, no custom
dictionary): pre-check of the header estimate against `maxOutputSize`, the
engine call, and the post-check of the actual decoded length. -/
def brotliDecodeWrapper (buffer : List Nat) (maxOutputSize : Option Nat)
    (engineDecode : Option Nat → List Nat) : Except String (List Nat) :=
  let outputSize := wrapperOutputSize buffer
  let pre : Bool :=
    match maxOutputSize, outputSize with
    | some mx, some osz => decide (mx < osz)
    | _, _ => false
  if pre then .error "Decompressed size exceeds limit"
  else
    let decoded := engineDecode outputSize
    match maxOutputSize with
    | some mx =>
      if mx < decoded.length then .error "Decompressed size exceeds limit"
      else .ok decoded
    | none => .ok decoded

/-! ## C7: complex prefix code must exactly fill the code space
`readHuffmanCodeLengths` from `src/src/decode/engine.ts` lines 305-371.
The code-length symbols decoded from the bit stream (each a value 0..17 with
its extra bits) are modelled as a token stream; the function below is the
loop of `readHuffmanCodeLengths` over it. -/

/-- One decoded code-length symbol: the symbol value (0..17) and, for the
repeat symbols 16/17, the raw extra-bits read (`readFewBits` masks them). -/
structure CLToken where
  codeLen : Nat
  extra : Nat
deriving DecidableEq

/-- `TypedArray.fill(v, a, b)` for `a ≤ b ≤ l.length` (the only use here). -/
def listFill (l : List Nat) (v a b : Nat) : List Nat :=
  l.take a ++ List.replicate (b - a) v ++ l.drop b

/-- The repeat-symbol bookkeeping of `readHuffmanCodeLengths` (the straight
line code on its 16/17 branch): returns `(repeatCodeLen', repeat',
repeatDelta)`. -/
def rhclRepeatStep (prevCodeLen rep repCodeLen codeLen extra : Nat) :
    Nat × Nat × Nat :=
  let extraBits := codeLen - 14
  let newLen := if codeLen = 16 then prevCodeLen else 0
  let rep1 := if repCodeLen ≠ newLen then 0 else rep
  let rep2 := if 0 < rep1 then (rep1 - 2) <<< extraBits else rep1
  let rep3 := rep2 + (extra &&& ((1 <<< extraBits) - 1)) + 3
  (newLen, rep3, rep3 - rep1)

/-- The main loop of `readHuffmanCodeLengths`; state variables are the
source's `symbol`, `prevCodeLen`, `repeat`, `repeatCodeLen`, `space`,
`codeLengths`.  Running out of tokens models `readMoreInput` failing
(error -16). -/
def rhclLoop (numSymbols : Nat) :
    List CLToken → Nat → Nat → Nat → Nat → Int → List Nat → Except Int (List Nat)
  | [], symbol, _, _, _, space, codeLengths =>
    if symbol < numSymbols ∧ 0 < space then .error (-16)
    else if space ≠ 0 then .error (-18)
    else .ok (listFill codeLengths 0 symbol numSymbols)
  | t :: rest, symbol, prevCodeLen, rep, repCodeLen, space, codeLengths =>
    if symbol < numSymbols ∧ 0 < space then
      if t.codeLen < 16 then
        if t.codeLen ≠ 0 then
          rhclLoop numSymbols rest (symbol + 1) t.codeLen 0 repCodeLen
            (space - ((32768 >>> t.codeLen : Nat) : Int))
            (codeLengths.set symbol t.codeLen)
        else
          rhclLoop numSymbols rest (symbol + 1) prevCodeLen 0 repCodeLen
            space (codeLengths.set symbol t.codeLen)
      else
        let step := rhclRepeatStep prevCodeLen rep repCodeLen t.codeLen t.extra
        if numSymbols < symbol + step.2.2 then .error (-2)
        else if step.1 ≠ 0 then
          rhclLoop numSymbols rest (symbol + step.2.2) prevCodeLen step.2.1 step.1
            (space - ((step.2.2 <<< (15 - step.1) : Nat) : Int))
            (listFill codeLengths step.1 symbol (symbol + step.2.2))
        else
          rhclLoop numSymbols rest (symbol + step.2.2) prevCodeLen step.2.1 step.1
            space (listFill codeLengths step.1 symbol (symbol + step.2.2))
    else
      if space ≠ 0 then .error (-18)
      else .ok (listFill codeLengths 0 symbol numSymbols)

/-- `readHuffmanCodeLengths` entry: `symbol = 0`, `prevCodeLen = 8`,
`repeat = 0`, `repeatCodeLen = 0`, `space = 32768`, and a caller-zeroed
`codeLengths` scratch. -/
def readHuffmanCodeLengthsModel (tokens : List CLToken) (numSymbols : Nat) :
    Except Int (List Nat) :=
  rhclLoop numSymbols tokens 0 8 0 0 32768 (List.replicate numSymbols 0)

/-- One symbol's share of the Huffman code space (`2^(15-len)`, zero-length
symbols absent from the code). -/
def codeSpaceWeight (l : Nat) : Nat := if l ≠ 0 then 2 ^ (15 - l) else 0

/-- Total code space taken by a code-length assignment. -/
def codeSpaceSum (lens : List Nat) : Nat := (lens.map codeSpaceWeight).sum

/-! ## C10: small-input dispatch and the uncompressed round trip

Encoder side: the `brotliEncode` dispatch (`src/src/encode/encode.ts` lines
50-90) and `encodeUncompressed` (lines 105-138) over the `BitWriter`
(`writeBits`/`alignToByte`/`writeBytes`/`finish`), with `encodeMlen`,
`storeUncompressedMetaBlockHeader` and `storeUncompressedMetaBlock` from
`src/src/encode/metablock.ts` (lines 222-231, 257-271, 802-836).

Decoder side: the engine `decompress` state machine
(`src/src/decode/engine.ts` lines 1012-1517) restricted to the states a
stream of uncompressed metablocks visits — 1 (window bits), 2 (metablock
header), 6 (uncompressed copy), 12/13 (output write), 10 (finish) — with
`decodeMetaBlockLength`, `readNextMetablockHeader`,
`maybeReallocateRingBuffer`, `copyUncompressedData`, `writeRingBuffer`,
`jumpToByteBoundary`, `checkHealth` and `copyRawBytes` translated from the
same file.  The compressed/metadata/dictionary states (3, 4/7/8, 5, 9,
14) are outside the model and are mapped to the reserved code -990; the
round-trip theorem's traces never reach them.

The bit reader's accumulator machinery (`accumulator32`, `bitOffset`,
`halfOffset`, `shortBuffer`) is modelled as an LSB-first cursor `bitPos`
over the input bit sequence, for streams that fit the 4096-byte input
buffer in one `readMoreInput` (so `endOfStreamReached` holds and
`tailBytes` is the stream length): the absolute consumed-bit count is
`16 * halfOffset - 32 + bitOffset`, refills keep it unchanged, and reads
past the stream see the zero-filled buffer.  Under that correspondence
`(32 - bitOffset) & 7 = (8 - bitPos % 8) % 8` and the `checkHealth` byte
offset `(halfOffset << 1) + ((bitOffset + 7) >> 3) - 4` is
`(bitPos + 7) / 8`. -/

/-- The four code paths of the `brotliEncode` dispatch. -/
inductive EncodePath where
  | empty
  | uncompressed
  | fast
  | standard
deriving DecidableEq

/-- The effective quality: `brotliEncode` clamps the option with
`Math.max(0, Math.min(11, q))` (default 11), and `sanitizeParams` clamps
again to `[MIN_QUALITY, MAX_QUALITY] = [0, 11]`. -/
def brotliEncodeQuality (q : Option Int) : Int :=
  let q0 : Int := match q with | none => 11 | some v => max 0 (min 11 v)
  max 0 (min 11 q0)

/-- The dispatch of `brotliEncode` (lines 73-90): empty input, then
`quality === 0 || input.length < 64` uncompressed, then `quality === 1`
fast, else standard. -/
def brotliEncodeDispatch (inputLen : Nat) (quality : Int) : EncodePath :=
  if inputLen = 0 then .empty
  else if quality = 0 ∨ inputLen < 64 then .uncompressed
  else if quality = 1 then .fast
  else .standard

/-- `BitWriter.writeBits(n, v)`: append the low `n` bits of `v`, LSB first.
The byte buffer is modelled by the bit sequence written so far: bytes past
`pos` are zero (fresh `Uint8Array`, re-zeroed by `prepareStorage`), so the
read-modify-write of the current partial byte is exactly an append.  Every
call site in the modelled paths passes `v < 2^n`. -/
def writeBits (w : List Bool) (n v : Nat) : List Bool :=
  w ++ toBits n v

/-- `BitWriter.alignToByte()`: `(8 - (pos & 7)) & 7` zero bits of padding. -/
def alignToByte (w : List Bool) : List Bool :=
  w ++ List.replicate ((8 - w.length % 8) % 8) false

/-- `BitWriter.writeBytes(bytes)`: throws unless byte-aligned. -/
def writeBytes (w : List Bool) (bytes : List Nat) : Option (List Bool) :=
  if w.length % 8 = 0 then some (w ++ bytesToBits bytes) else none

/-- `BitWriter.finish()`: the `(pos + 7) >>> 3` bytes written, the final
partial byte zero-padded. -/
def writerFinish (w : List Bool) : List Nat :=
  bitsToBytes w

/-- `encodeMlen(length)` (`metablock.ts` lines 222-231): returns
`(bits, numBits, nibblesBits)` = `(length-1, mnibbles*4, mnibbles-4)`. -/
def encodeMlen (length : Nat) : Nat × Nat × Nat :=
  let lg := if length = 1 then 1 else log2FloorNonZero (length - 1) + 1
  let mnibbles := (if lg < 16 then 16 else lg + 3) / 4
  (length - 1, mnibbles * 4, mnibbles - 4)

/-- `storeUncompressedMetaBlockHeader` (lines 257-271): ISLAST = 0, the two
MNIBBLES bits, MLEN-1, ISUNCOMPRESSED = 1.  `writeBitsLong` delegates to
`writeBits` for the `numBits ≤ 24` that `encodeMlen` produces. -/
def storeUncompressedMetaBlockHeader (w : List Bool) (length : Nat) :
    List Bool :=
  let m := encodeMlen length
  writeBits (writeBits (writeBits (writeBits w 1 0) 2 m.2.2) m.2.1 m.1) 1 1

/-- `storeUncompressedMetaBlock` (lines 802-836).  `prepareStorage` only
zeroes the byte at `pos`, already zero in the bit-list model. -/
def storeUncompressedMetaBlock (w : List Bool) (input : List Nat)
    (position mask length : Nat) (isFinal : Bool) : Option (List Bool) :=
  let w := alignToByte (storeUncompressedMetaBlockHeader w length)
  let maskedPos := position &&& mask
  let written :=
    if mask + 1 < maskedPos + length then
      match writeBytes w ((input.drop maskedPos).take (mask + 1 - maskedPos)) with
      | none => none
      | some w => writeBytes w (input.take (length - (mask + 1 - maskedPos)))
    else
      writeBytes w ((input.drop maskedPos).take length)
  match written with
  | none => none
  | some w =>
    if isFinal then some (alignToByte (writeBits (writeBits w 1 1) 1 1))
    else some w

/-- `Math.ceil(Math.log2 n)` for a positive integer `n`, i.e. `Nat.clog 2 n`
(exact in double precision for every `n` the encoder passes, since
`log2 n` is never within `2^-52` of a nonzero integer unless `n` is a
power of two). -/
def jsCeilLog2 (n : Nat) : Nat := Nat.clog 2 n

/-- The metablock loop of `encodeUncompressed` (lines 117-135), fuelled:
each iteration stores one metablock of at most `2^24 - 1` bytes at `pos`.
The source's two `storeUncompressedMetaBlock` calls differ only in the
`isLast` flag passed. -/
def encodeUncompressedLoop (input : List Nat) :
    Nat → Nat → List Bool → Option (List Bool)
  | 0, _, _ => none
  | fuel + 1, pos, w =>
    if pos < input.length then
      let blockSize := min (input.length - pos) ((1 <<< 24) - 1)
      match storeUncompressedMetaBlock w input pos (input.length - 1)
          blockSize (decide (input.length ≤ pos + blockSize)) with
      | none => none
      | some w => encodeUncompressedLoop input fuel (pos + blockSize) w
    else some w

/-- `encodeUncompressed(input)` (lines 105-138): minimal window-bits header,
then the uncompressed metablocks, then `finish`. -/
def encodeUncompressed (input : List Nat) : Option (List Nat) :=
  let lgwin := max 10 (min 24
    (if input.length ≤ 1 then 10 else jsCeilLog2 input.length + 1))
  let wb := encodeWindowBits lgwin false
  let w := writeBits [] wb.2 wb.1
  match encodeUncompressedLoop input (input.length + 1) 0 w with
  | none => none
  | some w => some (writerFinish w)

/-- The stream `encodeUncompressed` produces on a nonempty input of fewer
than 64 bytes (proved below): a 4-byte header, the raw bytes, and the
final empty last metablock `11` padded to a byte. -/
def uncompressedStream (input : List Nat) : List Nat :=
  33 :: 4 * (input.length - 1) :: 0 :: 4 :: (input ++ [3])

/-- The 32 header bits of that stream as one number (LSB first):
`33 + 256 * (4 * (n-1)) + 2^24 * 4`. -/
def uncompressedHeader (n : Nat) : Nat := 1024 * (n - 1) + 67108897

/-- Decoder state: the fields of the engine `State` touched by the
header/uncompressed/write states, over the abstract bit cursor. -/
structure DecState where
  bits : List Bool
  bitPos : Nat
  runningState : Nat
  nextRunningState : Nat
  inputEnd : Nat
  metaBlockLength : Nat
  isUncompressed : Nat
  isMetadata : Nat
  pos : Nat
  ringBuffer : List Nat
  ringBufferSize : Nat
  maxRingBufferSize : Nat
  expectedTotalSize : Nat
  ringBufferBytesReady : Nat
  ringBufferBytesWritten : Nat
  output : List Nat
  outputUsed : Nat
  outputLength : Nat

/-- `readFewBits(n)` over the cursor (missing bits read as 0: the refill
buffer is zero beyond `tailBytes`). -/
def readF (s : DecState) (n : Nat) : Nat × DecState :=
  (ofBits ((s.bits.drop s.bitPos).take n), { s with bitPos := s.bitPos + n })

/-- `TypedArray.set(v, off)` / the in-place byte writes of the decoder. -/
def overwriteAt (l : List Nat) (off : Nat) (v : List Nat) : List Nat :=
  l.take off ++ v ++ l.drop (off + v.length)

/-- The MLEN nibble loop of `decodeMetaBlockLength` (lines 238-248):
`metaBlockLength += readFewBits(4) << (i * 4)`, error -8 on a useless
trailing zero nibble. -/
def dmblNibbleLoop (sizeNibbles : Nat) :
    Nat → Nat → Nat → DecState → Except Int (Nat × DecState)
  | 0, _, acc, s => .ok (acc, s)
  | count + 1, i, acc, s =>
    let r := readF s 4
    if r.1 = 0 ∧ i + 1 = sizeNibbles ∧ 4 < sizeNibbles then .error (-8)
    else dmblNibbleLoop sizeNibbles count (i + 1) (acc + (r.1 <<< (i * 4))) r.2

/-- The metadata size-byte loop of `decodeMetaBlockLength` (lines 226-236). -/
def dmblByteLoop (sizeBytes : Nat) :
    Nat → Nat → Nat → DecState → Except Int (Nat × DecState)
  | 0, _, acc, s => .ok (acc, s)
  | count + 1, i, acc, s =>
    let r := readF s 8
    if r.1 = 0 ∧ i + 1 = sizeBytes ∧ 1 < sizeBytes then .error (-8)
    else dmblByteLoop sizeBytes count (i + 1) (acc + (r.1 <<< (i * 8))) r.2

/-- The tail of `decodeMetaBlockLength` after the ISLAST/ISEMPTY bits:
MNIBBLES, the metadata escape, the length nibbles, the `metaBlockLength++`
and the ISUNCOMPRESSED bit of non-last blocks. -/
def dmblTail (s : DecState) : Except Int DecState :=
  let rn := readF s 2
  let sizeNibbles := rn.1 + 4
  if sizeNibbles = 7 then
    let s := { rn.2 with isMetadata := 1 }
    let rr := readF s 1
    if rr.1 ≠ 0 then .error (-6)
    else
      let rb := readF rr.2 2
      if rb.1 = 0 then .ok rb.2
      else
        match dmblByteLoop rb.1 rb.1 0 0 rb.2 with
        | .error e => .error e
        | .ok (len, s) =>
          let s := { s with metaBlockLength := len + 1 }
          if s.inputEnd = 0 then
            let ru := readF s 1
            .ok { ru.2 with isUncompressed := ru.1 }
          else .ok s
  else
    match dmblNibbleLoop sizeNibbles sizeNibbles 0 0 rn.2 with
    | .error e => .error e
    | .ok (len, s) =>
      let s := { s with metaBlockLength := len + 1 }
      if s.inputEnd = 0 then
        let ru := readF s 1
        .ok { ru.2 with isUncompressed := ru.1 }
      else .ok s

/-- `decodeMetaBlockLength` (lines 204-255).  The second read of the
ISLAST/ISEMPTY pair is short-circuited exactly as in the source. -/
def decodeMetaBlockLength (s : DecState) : Except Int DecState :=
  let r := readF s 1
  let s : DecState := { r.2 with
    inputEnd := r.1, metaBlockLength := 0,
    isUncompressed := 0, isMetadata := 0 }
  if s.inputEnd ≠ 0 then
    let r2 := readF s 1
    if r2.1 ≠ 0 then .ok r2.2
    else dmblTail r2.2
  else dmblTail s

/-- `jumpToByteBoundary` (lines 1857-1866): the padding bits to the next
byte boundary must be zero, else error -5. -/
def jumpToByteBoundary (s : DecState) : Except Int DecState :=
  let padding := (8 - s.bitPos % 8) % 8
  if padding ≠ 0 then
    let r := readF s padding
    if r.1 ≠ 0 then .error (-5) else .ok r.2
  else .ok s

/-- `checkHealth` (lines 1792-1804) for a fully buffered stream. -/
def checkHealth (s : DecState) (endOfStream : Bool) : Except Int DecState :=
  let byteOffset := (s.bitPos + 7) / 8
  if s.bits.length / 8 < byteOffset then .error (-13)
  else if endOfStream ∧ byteOffset ≠ s.bits.length / 8 then .error (-17)
  else .ok s

/-- The halving loop of `maybeReallocateRingBuffer`
(`while ((newSize >> 1) > minimalNewSize) newSize >>= 1`), fuelled. -/
def halveLoop : Nat → Nat → Nat → Nat
  | 0, newSize, _ => newSize
  | fuel + 1, newSize, minimal =>
    if minimal < newSize >>> 1 then halveLoop fuel (newSize >>> 1) minimal
    else newSize

/-- `maybeReallocateRingBuffer` (lines 608-630): shrink `maxRingBufferSize`
towards `expectedTotalSize`, allocate `newSize + 37` bytes and copy the old
contents to offset 0. -/
def maybeReallocateRingBuffer (s : DecState) : DecState :=
  let newSize :=
    if s.expectedTotalSize < s.maxRingBufferSize then
      let n := halveLoop 32 s.maxRingBufferSize s.expectedTotalSize
      if s.inputEnd = 0 ∧ n < 16384 ∧ 16384 ≤ s.maxRingBufferSize then 16384
      else n
    else s.maxRingBufferSize
  if newSize ≤ s.ringBufferSize then s
  else
    { s with
      ringBuffer := (s.ringBuffer.take s.ringBufferSize
        ++ List.replicate (newSize + 37) 0).take (newSize + 37),
      ringBufferSize := newSize }

/-- `readNextMetablockHeader` (lines 631-678).  The tree-group resets are
not observable here; `readMoreInput` never fires for a buffered stream
(`halfOffset ≤ 2030`). -/
def readNextMetablockHeader (s : DecState) : Except Int DecState :=
  if s.inputEnd ≠ 0 then
    .ok { s with nextRunningState := 10, runningState := 12 }
  else
    match decodeMetaBlockLength s with
    | .error e => .error e
    | .ok s =>
      if s.metaBlockLength = 0 ∧ s.isMetadata = 0 then .ok s
      else
        match
          ((if s.isUncompressed ≠ 0 ∨ s.isMetadata ≠ 0 then
            match jumpToByteBoundary s with
            | .error e => .error e
            | .ok s =>
              .ok (if s.isMetadata = 0 then { s with runningState := 6 }
                else { s with runningState := 5 })
          else .ok { s with runningState := 3 }) : Except Int DecState) with
        | .error e => .error e
        | .ok s =>
          if s.isMetadata ≠ 0 then .ok s
          else
            let ets := min (s.expectedTotalSize + s.metaBlockLength) (1 <<< 30)
            let s := { s with expectedTotalSize := ets }
            .ok (if s.ringBufferSize < s.maxRingBufferSize then
              maybeReallocateRingBuffer s else s)

/-- `copyRawBytes` (lines 1874-1924) for a buffered stream: a byte-aligned
read of `len` consecutive stream bytes into `data` at `offset` (error -30
when misaligned), through whichever mix of accumulator and buffer reads;
followed by the `checkHealth(0)` of its accumulator tail path. -/
def copyRawBytes (s : DecState) (data : List Nat) (offset len : Nat) :
    Except Int (List Nat × DecState) :=
  if s.bitPos % 8 ≠ 0 then .error (-30)
  else
    let bytes := (List.range len).map
      (fun i => ofBits ((s.bits.drop (s.bitPos + 8 * i)).take 8))
    match checkHealth { s with bitPos := s.bitPos + 8 * len } false with
    | .error e => .error e
    | .ok s => .ok (overwriteAt data offset bytes, s)

/-- `copyUncompressedData` (lines 838-867); `reload` does not move the
cursor. -/
def copyUncompressedData (s : DecState) : Except Int DecState :=
  if s.metaBlockLength = 0 then .ok { s with runningState := 2 }
  else
    let chunkLength := min (s.ringBufferSize - s.pos) s.metaBlockLength
    match copyRawBytes s s.ringBuffer s.pos chunkLength with
    | .error e => .error e
    | .ok (rb, s) =>
      let s := { s with
        ringBuffer := rb,
        metaBlockLength := s.metaBlockLength - chunkLength,
        pos := s.pos + chunkLength }
      if s.pos = s.ringBufferSize then
        .ok { s with nextRunningState := 6, runningState := 12 }
      else .ok { s with runningState := 2 }

/-- `writeRingBuffer` (lines 868-879); `outputOffset = 0` in both output
paths of the engine `brotliDecode`. -/
def writeRingBuffer (s : DecState) : Nat × DecState :=
  let toWrite := min (s.outputLength - s.outputUsed)
    (s.ringBufferBytesReady - s.ringBufferBytesWritten)
  let s :=
    if toWrite ≠ 0 then
      { s with
        output := overwriteAt s.output s.outputUsed
          ((s.ringBuffer.drop s.ringBufferBytesWritten).take toWrite),
        outputUsed := s.outputUsed + toWrite,
        ringBufferBytesWritten := s.ringBufferBytesWritten + toWrite }
    else s
  if s.outputUsed < s.outputLength then (0, s) else (2, s)

/-- The `decompress` loop (lines 1035-1516) over the modelled states, with
the loop-exit trailer (`jumpToByteBoundary`, `checkHealth(1)`); returns the
source's return value (1 or 2) and the final state.  States 3, 4/7/8, 5, 9
and 14 (compressed data, metadata, dictionary) are outside the model: -990.
The fuel only bounds the number of state transitions (the source loop is
unbounded); -999 marks exhaustion and is never reached on the proved
traces.  The `maxDistance`/`fence` bookkeeping is consulted only by the
unmodelled compressed states and is dropped. -/
def decompressRun : Nat → DecState → Except Int (Nat × DecState)
  | 0, _ => .error (-999)
  | fuel + 1, s =>
    if s.runningState = 10 then
      match jumpToByteBoundary s with
      | .error e => .error e
      | .ok s =>
        match checkHealth s true with
        | .error e => .error e
        | .ok s => .ok (1, s)
    else if s.runningState = 2 then
      match readNextMetablockHeader s with
      | .error e => .error e
      | .ok s => decompressRun fuel s
    else if s.runningState = 6 then
      match copyUncompressedData s with
      | .error e => .error e
      | .ok s => decompressRun fuel s
    else if s.runningState = 12 then
      decompressRun fuel { s with
        ringBufferBytesReady := min s.pos s.ringBufferSize,
        runningState := 13 }
    else if s.runningState = 13 then
      let r := writeRingBuffer s
      if r.1 ≠ 0 then .ok (r.1, r.2)
      else
        let s := r.2
        let s :=
          if s.ringBufferSize ≤ s.pos then
            { s with
              ringBuffer := overwriteAt s.ringBuffer 0
                ((s.ringBuffer.drop s.ringBufferSize).take
                  (s.pos - s.ringBufferSize)),
              pos := s.pos % s.ringBufferSize,
              ringBufferBytesWritten := 0 }
          else s
        decompressRun fuel { s with runningState := s.nextRunningState }
    else .error (-990)

/-- `decompress` on a fresh state (engine `brotliDecode` sets up
`initState`/`initBitReader`, one output buffer of `outputSize` bytes at
offset 0): state 1 decodes the window bits (`-11` on the reserved escape),
sets `maxRingBufferSize = 1 << windowBits` and enters the loop in state 2. -/
def decompressModel (bytes : List Nat) (outputSize : Nat) :
    Except Int (Nat × DecState) :=
  let bits := bytesToBits bytes
  let wb := decodeWindowBits bits
  if wb.1 = -1 then .error (-11)
  else
    decompressRun 100000
      { bits := bits, bitPos := bits.length - wb.2.length,
        runningState := 2, nextRunningState := 0, inputEnd := 0,
        metaBlockLength := 0, isUncompressed := 0, isMetadata := 0,
        pos := 0, ringBuffer := [], ringBufferSize := 0,
        maxRingBufferSize := 1 <<< wb.1.toNat, expectedTotalSize := 0,
        ringBufferBytesReady := 0, ringBufferBytesWritten := 0,
        output := List.replicate outputSize 0, outputUsed := 0,
        outputLength := outputSize }

/-- The engine `brotliDecode` chunked-output path (lines 2223-2256), the one
the wrapper takes when `peekDecodedSize` is not positive: a first 16384-byte
chunk, and when `decompress` leaves it unfilled the loop stops and the
result is the `totalOutput`-byte prefix.  A full 16384-byte chunk would
continue into further chunks, which no modelled stream needs: -990. -/
def brotliDecodeChunkedModel (bytes : List Nat) : Except Int (List Nat) :=
  match decompressModel bytes 16384 with
  | .error e => .error e
  | .ok (_, s) =>
    if s.outputUsed < 16384 then .ok (s.output.take s.outputUsed)
    else .error (-990)

end Brotli

namespace Brotli

/-! ## Helper lemmas -/

/-- The scan loop only moves forward, stays at or below 25, lands on a code
whose offset is at or below `len`, and stops just before an offset above
`len` (or at the last code). -/
theorem blpcLoop_spec (k : Nat) : ∀ len code, NUM_BLOCK_LEN_SYMBOLS - code ≤ k →
    blRangeOffset code ≤ len → code ≤ 25 →
    code ≤ blpcLoop len code ∧ blpcLoop len code ≤ 25 ∧
      blRangeOffset (blpcLoop len code) ≤ len ∧
      (blpcLoop len code = 25 ∨ len < blRangeOffset (blpcLoop len code + 1)) := by
  induction k with
  | zero =>
    intro len code hk hoff hle
    simp [NUM_BLOCK_LEN_SYMBOLS] at hk
    omega
  | succ k ih =>
    intro len code hk hoff hle
    rw [blpcLoop]
    by_cases h : code < NUM_BLOCK_LEN_SYMBOLS - 1 ∧ blRangeOffset (code + 1) ≤ len
    · rw [if_pos h]
      have hlt : code < 25 := by
        have := h.1
        simp [NUM_BLOCK_LEN_SYMBOLS] at this
        omega
      have hrec := ih len (code + 1)
        (by simp [NUM_BLOCK_LEN_SYMBOLS] at hk ⊢; omega) h.2 (by omega)
      exact ⟨by omega, hrec.2.1, hrec.2.2.1, hrec.2.2.2⟩
    · rw [if_neg h]
      refine ⟨Nat.le_refl _, hle, hoff, ?_⟩
      by_cases h25 : code = 25
      · exact Or.inl h25
      · right
        rcases not_and_or.mp h with hlt | hge
        · exact absurd (by simp [NUM_BLOCK_LEN_SYMBOLS]; omega) hlt
        · omega

/-- The jump-start index used by `blockLengthPrefixCode` is a valid starting
point for the scan. -/
theorem blockLengthPrefixCode_start (len : Nat) (h1 : 1 ≤ len) :
    ∃ s, blockLengthPrefixCode len = blpcLoop len s ∧ blRangeOffset s ≤ len ∧ s ≤ 25 := by
  unfold blockLengthPrefixCode
  by_cases ha : 177 ≤ len
  · by_cases hb : 753 ≤ len
    · refine ⟨20, ?_, ?_, by omega⟩
      · rw [if_pos ha, if_pos hb]
      · simpa [blRangeOffset, BLOCK_LENGTH_PREFIX_RANGES] using hb
    · refine ⟨14, ?_, ?_, by omega⟩
      · rw [if_pos ha, if_neg hb]
      · simpa [blRangeOffset, BLOCK_LENGTH_PREFIX_RANGES] using ha
  · by_cases hc : 41 ≤ len
    · refine ⟨7, ?_, ?_, by omega⟩
      · rw [if_neg ha, if_pos hc]
      · simpa [blRangeOffset, BLOCK_LENGTH_PREFIX_RANGES] using hc
    · refine ⟨0, ?_, ?_, by omega⟩
      · rw [if_neg ha, if_neg hc]
      · simpa [blRangeOffset, BLOCK_LENGTH_PREFIX_RANGES] using h1

/-- C4: the encoder's block-length prefix code is the exact inverse of the
decoder's canonical table: for `1 ≤ len ≤ 16624 + 2^24`,
`getBlockLengthPrefixCode(len) = (code, nbits, extra)` satisfies
`extra < 2^nbits`, `nbits = BLOCK_LENGTH_N_BITS[code]`, and
`BLOCK_LENGTH_OFFSET[code] + extra = len`. -/
theorem blockLength_code_inverse (len : Nat) (h1 : 1 ≤ len) (h2 : len ≤ 16624 + 2 ^ 24) :
    (getBlockLengthPrefixCode len).2.2 < 2 ^ (getBlockLengthPrefixCode len).2.1 ∧
    (getBlockLengthPrefixCode len).2.1
      = BLOCK_LENGTH_N_BITS.getD (getBlockLengthPrefixCode len).1 0 ∧
    BLOCK_LENGTH_OFFSET.getD (getBlockLengthPrefixCode len).1 0
      + (getBlockLengthPrefixCode len).2.2 = len := by
  obtain ⟨s, hs, hs1, hs2⟩ := blockLengthPrefixCode_start len h1
  have spec := blpcLoop_spec 26 len s (by simp [NUM_BLOCK_LEN_SYMBOLS]) hs1 hs2
  simp only [getBlockLengthPrefixCode, hs]
  revert spec
  generalize blpcLoop len s = r
  rintro ⟨-, hle25, hoff, hstop⟩
  interval_cases r <;>
    simp_all [blRangeOffset, blRangeNBits, BLOCK_LENGTH_PREFIX_RANGES,
      BLOCK_LENGTH_N_BITS, BLOCK_LENGTH_OFFSET] <;>
    omega

/-- Witness for `blockLength_code_inverse` at len = 300. -/
theorem blockLength_code_inverse_witness :
    (getBlockLengthPrefixCode 300).2.2 < 2 ^ (getBlockLengthPrefixCode 300).2.1 ∧
    (getBlockLengthPrefixCode 300).2.1
      = BLOCK_LENGTH_N_BITS.getD (getBlockLengthPrefixCode 300).1 0 ∧
    BLOCK_LENGTH_OFFSET.getD (getBlockLengthPrefixCode 300).1 0
      + (getBlockLengthPrefixCode 300).2.2 = 300 :=
  blockLength_code_inverse 300 (by decide) (by decide)

/-- C9 counterexample: after `SimpleHasher.reset` (quality 2, bucketBits 16)
and `HashChainHasher.reset` (bucketBits 14), empty slots hold 0 — not the
`-windowMask` sentinel (which at lgwin 22 is 4290772993, as `BinaryTreeHasher`
uses) — so an empty slot is NOT distinguishable from a stored position 0 in
those two hashers. -/
theorem hasher_sentinel_counterexample :
    (0 : Nat) ∈ simpleHasherResetBuckets 16 ∧
    (0 : Nat) ∈ hashChainResetBuckets 14 ∧
    jsToUint32 (0 - (binaryTreeWindowMask 22 : Int)) = 4290772993 ∧
    (0 : Nat) ≠ jsToUint32 (0 - (binaryTreeWindowMask 22 : Int)) := by
  exact ⟨List.mem_replicate.mpr ⟨by decide, rfl⟩,
    List.mem_replicate.mpr ⟨by decide, rfl⟩, by decide, by decide⟩

/-- C9 (amended): only the `BinaryTreeHasher` uses
`invalidPos = (-windowMask) >>> 0` as the empty-slot sentinel;
`SimpleHasher` and `HashChainHasher` fill empty buckets with 0 (and instead
detect emptiness through the `backward == 0` distance check). -/
theorem hasher_sentinels (lgwin bucketBits : Nat) :
    (∀ x ∈ simpleHasherResetBuckets bucketBits, x = 0) ∧
    (∀ x ∈ hashChainResetBuckets bucketBits, x = 0) ∧
    (∀ x ∈ binaryTreeResetBuckets lgwin,
      x = jsToUint32 (0 - (binaryTreeWindowMask lgwin : Int))) := by
  refine ⟨fun x hx => ?_, fun x hx => ?_, fun x hx => ?_⟩ <;>
    exact List.eq_of_mem_replicate hx

/-- Witness for `hasher_sentinels` at lgwin = 22, bucketBits = 16. -/
theorem hasher_sentinels_witness :
    (0 : Nat) = 0 ∧
    binaryTreeInvalidPos 22 = jsToUint32 (0 - (binaryTreeWindowMask 22 : Int)) :=
  ⟨(hasher_sentinels 22 16).1 0 (List.mem_replicate.mpr ⟨by decide, rfl⟩),
   (hasher_sentinels 22 16).2.2 (binaryTreeInvalidPos 22)
     (List.mem_replicate.mpr ⟨by decide, rfl⟩)⟩

/-- C5 counterexample: a command whose distance symbol is the short code 1
changes both the decoder's ring buffer and its rotating index (initial ring
16,15,11,4 with index 3, symbol 1 yields ring 11,15,11,4 with index 0), and
on the encoder side `distanceToCode` returning short code 1 still shifts the
distance cache. -/
theorem distanceRing_shortCode_counterexample :
    decodeDistancePhase [16, 15, 11, 4] 3 1 0 (fun _ => 0) 0 1008
      = .ok ⟨[11, 15, 11, 4], 0, 11⟩ ∧
    ([11, 15, 11, 4] : List Int) ≠ [16, 15, 11, 4] ∧
    distanceToCode 11 [4, 11, 15, 16] = 1 ∧
    updateDistCache (distanceToCode 11 [4, 11, 15, 16]) 11 [4, 11, 15, 16]
      = [11, 4, 11, 15] ∧
    ([11, 4, 11, 15] : List Int) ≠ [4, 11, 15, 16] := by
  decide

/-- C5 (amended): the decoder's 4-entry distance ring and its rotating index
are left unchanged exactly for distance code 0 (and for the negative "reuse"
codes, which never reach this phase); every positive distance code — the
short codes 1..15 included — advances the index and stores the distance.
Likewise the encoder's cache is unchanged iff `distanceToCode` returns 0, and
is shifted for every positive code, short codes 1..15 included. -/
theorem distanceRing_update_discipline (rings : List Int) (distRbIdx : Nat)
    (distanceCode : Nat) (extra : Nat) (tbl : Nat → Int) (np : Nat)
    (maxDistance : Int) (d : Int) (cache : List Int) :
    (distanceCode = 0 →
      ∀ r, decodeDistancePhase rings distRbIdx distanceCode extra tbl np maxDistance
        = .ok r → r.rings = rings ∧ r.distRbIdx = distRbIdx) ∧
    (0 < distanceCode →
      ∀ r, decodeDistancePhase rings distRbIdx distanceCode extra tbl np maxDistance
        = .ok r → r.distRbIdx = (distRbIdx + 1) % 4 ∧
          r.rings = rings.set ((distRbIdx + 1) % 4) r.distance) ∧
    (distanceToCode d cache = 0 →
      updateDistCache (distanceToCode d cache) d cache = cache) ∧
    (0 < distanceToCode d cache →
      updateDistCache (distanceToCode d cache) d cache
        = [d, cache.getD 0 0, cache.getD 1 0, cache.getD 2 0]) := by
  refine ⟨?_, ?_, ?_, ?_⟩
  · intro h0 r hr
    subst h0
    simp only [decodeDistancePhase] at hr
    split_ifs at hr <;>
      first
        | omega
        | (injection hr with h; subst h; exact ⟨rfl, rfl⟩)
  · intro hpos r hr
    simp only [decodeDistancePhase] at hr
    split_ifs at hr <;>
      first
        | omega
        | (injection hr with h; subst h; exact ⟨rfl, rfl⟩)
  · intro h0
    rw [updateDistCache, if_neg (by omega)]
  · intro hpos
    rw [updateDistCache, if_pos hpos]

/-- Witness for `distanceRing_update_discipline`: distance code 0 leaves the
ring and index unchanged. -/
theorem distanceRing_update_discipline_witness :
    DistPhase.rings ⟨[16, 15, 11, 4], 3, 4⟩ = [16, 15, 11, 4] ∧
    DistPhase.distRbIdx ⟨[16, 15, 11, 4], 3, 4⟩ = 3 :=
  (distanceRing_update_discipline [16, 15, 11, 4] 3 0 0 (fun _ => 0) 0 1008 11
      [4, 11, 15, 16]).1 rfl ⟨[16, 15, 11, 4], 3, 4⟩ (by decide)

theorem log2Aux_eq : ∀ fuel n, n ≤ fuel → log2Aux fuel n = Nat.log2 n := by
  intro fuel
  induction fuel with
  | zero =>
    intro n h
    interval_cases n
    simp [log2Aux, Nat.log2]
  | succ f ih =>
    intro n h
    rw [log2Aux.eq_2]
    by_cases h2 : n < 2
    · rw [if_pos h2]
      conv_rhs => rw [Nat.log2]
      rw [if_neg (by omega)]
    · rw [if_neg h2, ih (n / 2) (by omega)]
      conv_rhs => rw [Nat.log2]
      rw [if_pos (by omega)]

theorem log2FloorNonZero_eq (n : Nat) : log2FloorNonZero n = Nat.log2 n :=
  log2Aux_eq n n (Nat.le_refl n)

theorem shiftRight_log2_sub_one_lt (m : Nat) (h : 4 ≤ m) :
    m >>> (Nat.log2 m - 1) < 4 := by
  have hm0 : m ≠ 0 := by omega
  have hms : m < 2 ^ (Nat.log2 m + 1) := Nat.lt_log2_self
  have hl1 : 1 ≤ Nat.log2 m := (Nat.le_log2 hm0).mpr (by omega)
  rw [Nat.shiftRight_eq_div_pow]
  have h4e : 2 ^ (Nat.log2 m + 1) = 4 * 2 ^ (Nat.log2 m - 1) := by
    rw [show (4 : Nat) = 2 ^ 2 by norm_num, ← pow_add]
    congr 1
    omega
  exact (Nat.div_lt_iff_lt_mul (by positivity)).mpr (by omega)

theorem getInsertLengthCode_le (n : Nat) : getInsertLengthCode n ≤ 23 := by
  rw [getInsertLengthCode]
  split_ifs with h1 h2 h3 h4 h5
  · omega
  · simp only [log2FloorNonZero_eq]
    have hm0 : n - 2 ≠ 0 := by omega
    have hl : Nat.log2 (n - 2) < 7 := (Nat.log2_lt hm0).mpr (by omega)
    have hq := shiftRight_log2_sub_one_lt (n - 2) (by omega)
    rw [Nat.shiftLeft_eq, pow_one]
    omega
  · simp only [log2FloorNonZero_eq]
    have hm0 : n - 66 ≠ 0 := by omega
    have hl : Nat.log2 (n - 66) < 11 := (Nat.log2_lt hm0).mpr (by omega)
    omega
  · omega
  · omega
  · omega

theorem getCopyLengthCode_le (n : Nat) : getCopyLengthCode n ≤ 23 := by
  rw [getCopyLengthCode]
  split_ifs with h1 h2 h3
  · omega
  · simp only [log2FloorNonZero_eq]
    have hm0 : n - 6 ≠ 0 := by omega
    have hl : Nat.log2 (n - 6) < 7 := (Nat.log2_lt hm0).mpr (by omega)
    have hq := shiftRight_log2_sub_one_lt (n - 6) (by omega)
    rw [Nat.shiftLeft_eq, pow_one]
    omega
  · simp only [log2FloorNonZero_eq]
    have hm0 : n - 70 ≠ 0 := by omega
    have hl : Nat.log2 (n - 70) < 11 := (Nat.log2_lt hm0).mpr (by omega)
    omega
  · omega

theorem combineLengthCodes_lt_128 :
    ∀ i < 24, ∀ c < 24, ∀ u : Bool,
      (combineLengthCodes i c u < 128 ↔ (u = true ∧ i < 8 ∧ c < 16)) := by
  decide

theorem or_shl_and_mask (a b k : Nat) :
    (a ||| (b <<< k)) &&& (2 ^ k - 1) = a &&& (2 ^ k - 1) := by
  apply Nat.eq_of_testBit_eq
  intro i
  simp only [Nat.testBit_and, Nat.testBit_or, Nat.testBit_shiftLeft]
  by_cases hik : i < k
  · simp [Nat.testBit_two_pow_sub_one, hik, Nat.not_le_of_lt hik]
  · simp [Nat.testBit_two_pow_sub_one, hik]

theorem and_mask_self (a k : Nat) (h : a < 2 ^ k) : a &&& (2 ^ k - 1) = a := by
  rw [Nat.and_pow_two_sub_one_eq_mod]
  exact Nat.mod_eq_of_lt h

/-- C6 counterexample: `createInsertCommand(10)` (insert length 10, so
`insCode = 8`) has `cmdPrefix = 256 ≥ 128` although it reuses the last
distance (distance code 0) and no distance symbol follows it in the
serialized stream (its copy length is 0), refuting the claimed equivalence. -/
theorem cmdPrefix_reuse_counterexample :
    ¬ ((createInsertCommand 10).cmdPrefixCode < 128 ↔
      (commandReusesLastDistance (createInsertCommand 10) ∧
        ¬ storeMetaBlockTrivialEmitsDistance (createInsertCommand 10))) := by
  decide

/-- C6 (amended): for commands built by `createCommand` with a nonzero copy
length, `cmdPrefix < 128` iff the command reuses the last distance and no
distance symbol follows it; insert-only commands from `createInsertCommand`
always reuse the last distance and are never followed by a distance symbol,
yet have `cmdPrefix < 128` only when their insert-length code is below 8; and
the metablock serializer emits a distance symbol exactly for commands with
nonzero copy length and `cmdPrefix ≥ 128`. -/
theorem cmdPrefix_distance_discipline :
    (∀ insertLen copyLen (delta : Int) dcode,
      0 < copyLen → copyLen < 2 ^ 25 →
      ((createCommand insertLen copyLen delta dcode 0 0).cmdPrefixCode < 128 ↔
        (commandReusesLastDistance (createCommand insertLen copyLen delta dcode 0 0) ∧
          ¬ storeMetaBlockTrivialEmitsDistance
              (createCommand insertLen copyLen delta dcode 0 0)))) ∧
    (∀ insertLen,
      ¬ storeMetaBlockTrivialEmitsDistance (createInsertCommand insertLen) ∧
      commandReusesLastDistance (createInsertCommand insertLen) ∧
      ((createInsertCommand insertLen).cmdPrefixCode < 128 ↔
        getInsertLengthCode insertLen < 8)) ∧
    (∀ cmd, storeMetaBlockTrivialEmitsDistance cmd ↔
      (commandCopyLen cmd ≠ 0 ∧ 128 ≤ cmd.cmdPrefixCode)) := by
  refine ⟨?_, ?_, fun cmd => Iff.rfl⟩
  · intro iL cL delta dcode hpos hlt
    have hcl : commandCopyLen (createCommand iL cL delta dcode 0 0) = cL := by
      simp only [createCommand, commandCopyLen]
      rw [show (0x1FFFFFF : Nat) = 2 ^ 25 - 1 by norm_num, or_shl_and_mask,
        and_mask_self _ _ hlt]
    have hemit : storeMetaBlockTrivialEmitsDistance (createCommand iL cL delta dcode 0 0) ↔
        128 ≤ (createCommand iL cL delta dcode 0 0).cmdPrefixCode := by
      unfold storeMetaBlockTrivialEmitsDistance
      rw [hcl]
      exact ⟨fun h => h.2, fun h => ⟨by omega, h⟩⟩
    have hreuse : (prefixEncodeCopyDist dcode 0 0).1 &&& 0x3FF = 0 →
        commandReusesLastDistance (createCommand iL cL delta dcode 0 0) := by
      intro h
      unfold commandReusesLastDistance
      show ((prefixEncodeCopyDist dcode 0 0).1
        ||| ((prefixEncodeCopyDist dcode 0 0).2.2 <<< 10)) &&& 0x3FF = 0
      rw [show (0x3FF : Nat) = 2 ^ 10 - 1 by norm_num, or_shl_and_mask,
        show (2 : Nat) ^ 10 - 1 = 0x3FF by norm_num]
      exact h
    have hpfx : (createCommand iL cL delta dcode 0 0).cmdPrefixCode
        = combineLengthCodes (getInsertLengthCode iL)
            (getCopyLengthCode (((cL : Int) + delta).toNat))
            (((prefixEncodeCopyDist dcode 0 0).1 &&& 0x3FF) == 0) := rfl
    have hiff := combineLengthCodes_lt_128 (getInsertLengthCode iL)
      (by have := getInsertLengthCode_le iL; omega)
      (getCopyLengthCode (((cL : Int) + delta).toNat))
      (by have := getCopyLengthCode_le (((cL : Int) + delta).toNat); omega)
      (((prefixEncodeCopyDist dcode 0 0).1 &&& 0x3FF) == 0)
    constructor
    · intro h128
      refine ⟨hreuse ?_, ?_⟩
      · have hu := (hiff.mp (hpfx ▸ h128)).1
        simpa using hu
      · rw [hemit]
        omega
    · rintro ⟨-, hnemit⟩
      rw [hemit] at hnemit
      omega
  · intro iL
    have h0 : commandCopyLen (createInsertCommand iL) = 0 := by
      show (0 ||| (2 <<< 25)) &&& 0x1FFFFFF = 0
      decide
    have hne : ¬ storeMetaBlockTrivialEmitsDistance (createInsertCommand iL) :=
      fun h => h.1 h0
    have hrb : commandReusesLastDistance (createInsertCommand iL) := by
      show (0 : Nat) &&& 0x3FF = 0
      decide
    refine ⟨hne, hrb, ?_⟩
    have hc2 : getCopyLengthCode 2 = 0 := by decide
    have hile := getInsertLengthCode_le iL
    by_cases h8 : getInsertLengthCode iL < 8
    · have hpfxb : (createInsertCommand iL).cmdPrefixCode
          = combineLengthCodes (getInsertLengthCode iL) (getCopyLengthCode 2) true := by
        simp only [createInsertCommand, getLengthCode, if_pos h8]
      rw [hpfxb, hc2]
      have := (combineLengthCodes_lt_128 (getInsertLengthCode iL) (by omega) 0
        (by omega) true).mpr ⟨rfl, h8, by omega⟩
      exact ⟨fun _ => h8, fun _ => this⟩
    · have hpfxb : (createInsertCommand iL).cmdPrefixCode
          = combineLengthCodes (getInsertLengthCode iL) (getCopyLengthCode 2) false := by
        simp only [createInsertCommand, getLengthCode, if_neg h8]
      rw [hpfxb, hc2]
      have := combineLengthCodes_lt_128 (getInsertLengthCode iL) (by omega) 0
        (by omega) false
      constructor
      · intro hlt
        exact absurd (this.mp hlt).1 (by simp)
      · intro hlt
        exact absurd hlt h8

/-- Witness for `cmdPrefix_distance_discipline` at a concrete command with
copy length 4 and distance code 0. -/
theorem cmdPrefix_distance_discipline_witness :
    (createCommand 0 4 0 0 0 0).cmdPrefixCode < 128 ↔
      (commandReusesLastDistance (createCommand 0 4 0 0 0 0) ∧
        ¬ storeMetaBlockTrivialEmitsDistance (createCommand 0 4 0 0 0 0)) :=
  cmdPrefix_distance_discipline.1 0 4 0 0 (by decide) (by decide)

theorem wrapperOutputSize_some {b : List Nat} {o : Nat}
    (h : wrapperOutputSize b = some o) :
    0 < peekDecodedSize b ∧ o = (peekDecodedSize b).toNat := by
  unfold wrapperOutputSize at h
  split_ifs at h with hp
  cases h
  exact ⟨hp, rfl⟩

theorem brotliDecodeWrapper_none {buffer : List Nat} (mx : Nat)
    (eng : Option Nat → List Nat) (h : wrapperOutputSize buffer = none) :
    brotliDecodeWrapper buffer (some mx) eng =
      if mx < (eng none).length then Except.error "Decompressed size exceeds limit"
      else .ok (eng none) := by
  unfold brotliDecodeWrapper
  rw [h]
  simp

theorem brotliDecodeWrapper_some {buffer : List Nat} {osz : Nat} (mx : Nat)
    (eng : Option Nat → List Nat) (h : wrapperOutputSize buffer = some osz) :
    brotliDecodeWrapper buffer (some mx) eng =
      if mx < osz then Except.error "Decompressed size exceeds limit"
      else if mx < (eng (some osz)).length then
        Except.error "Decompressed size exceeds limit"
      else .ok (eng (some osz)) := by
  unfold brotliDecodeWrapper
  rw [h]
  by_cases hm : mx < osz <;> simp [hm]

/-- C3: with `maxOutputSize` set, the `brotliDecode` wrapper never returns
more than `maxOutputSize` bytes; it rejects (with an error) whenever the
engine's decoded length exceeds the limit; and a stream whose decoded length
is within the limit is decoded normally (using that the header size estimate,
when positive, matches the decoded length — which holds for every valid
stream, cf. the size oracle). -/
theorem maxOutputSize_enforced (buffer : List Nat) (mx : Nat)
    (eng : Option Nat → List Nat) :
    (∀ out, brotliDecodeWrapper buffer (some mx) eng = .ok out → out.length ≤ mx) ∧
    (mx < (eng (wrapperOutputSize buffer)).length →
      ∃ e, brotliDecodeWrapper buffer (some mx) eng = .error e) ∧
    ((eng (wrapperOutputSize buffer)).length ≤ mx →
      (0 < peekDecodedSize buffer →
        (peekDecodedSize buffer).toNat = (eng (wrapperOutputSize buffer)).length) →
      brotliDecodeWrapper buffer (some mx) eng
        = .ok (eng (wrapperOutputSize buffer))) := by
  rcases hosz : wrapperOutputSize buffer with _ | osz
  · rw [brotliDecodeWrapper_none mx eng hosz]
    refine ⟨?_, ?_, ?_⟩
    · intro out hout
      split_ifs at hout with h1 <;> cases hout <;> omega
    · intro hlen
      rw [if_pos hlen]
      exact ⟨_, rfl⟩
    · intro hlen hex
      rw [if_neg (show ¬ mx < (eng none).length by omega)]
  · rw [brotliDecodeWrapper_some mx eng hosz]
    obtain ⟨hp, ho⟩ := wrapperOutputSize_some hosz
    refine ⟨?_, ?_, ?_⟩
    · intro out hout
      split_ifs at hout with h1 h2 <;> cases hout <;> omega
    · intro hlen
      by_cases h1 : mx < osz
      · rw [if_pos h1]
        exact ⟨_, rfl⟩
      · rw [if_neg h1, if_pos hlen]
        exact ⟨_, rfl⟩
    · intro hlen hex
      have hosze : osz = (eng (some osz)).length := ho.trans (hex hp)
      rw [if_neg (show ¬ mx < osz by omega),
        if_neg (show ¬ mx < (eng (some osz)).length by omega)]

/-- Witness for `maxOutputSize_enforced`: the two-byte empty stream, an
engine returning two bytes, limit 7. -/
theorem maxOutputSize_enforced_witness :
    brotliDecodeWrapper [161, 1] (some 7) (fun _ => [5, 6])
      = .ok ((fun _ : Option Nat => [5, 6]) (wrapperOutputSize [161, 1])) :=
  (maxOutputSize_enforced [161, 1] 7 (fun _ => [5, 6])).2.2 (by decide) (by decide)

theorem take_succ_set (l : List Nat) (n : Nat) (v : Nat) (h : n < l.length) :
    (l.set n v).take (n + 1) = l.take n ++ [v] := by
  induction l generalizing n with
  | nil => simp at h
  | cons x xs ih =>
    cases n with
    | zero => simp
    | succ m =>
      simp only [List.set_cons_succ, List.take_succ_cons, List.cons_append, List.cons.injEq,
        true_and]
      exact ih m (by simpa using h)

theorem listFill_take (l : List Nat) (v a b : Nat) (hab : a ≤ b) (hbl : b ≤ l.length) :
    (listFill l v a b).take b = l.take a ++ List.replicate (b - a) v := by
  unfold listFill
  rw [List.take_append_eq_append_take, List.take_append_eq_append_take]
  have h1 : (l.take a).length = a := by rw [List.length_take]; omega
  have h2 : (l.take a ++ List.replicate (b - a) v).length = b := by
    simp only [List.length_append, List.length_replicate, h1]
    omega
  rw [h1, h2]
  simp only [List.take_take, Nat.sub_self, List.take_zero, List.append_nil,
    min_eq_right hab, List.take_replicate, min_self]

theorem listFill_length (l : List Nat) (v a b : Nat) (hab : a ≤ b) (hbl : b ≤ l.length) :
    (listFill l v a b).length = l.length := by
  unfold listFill
  simp only [List.length_append, List.length_replicate, List.length_take, List.length_drop]
  omega

theorem codeSpaceSum_append (a b : List Nat) :
    codeSpaceSum (a ++ b) = codeSpaceSum a + codeSpaceSum b := by
  simp [codeSpaceSum]

theorem codeSpaceSum_replicate (n v : Nat) :
    codeSpaceSum (List.replicate n v) = n * codeSpaceWeight v := by
  simp [codeSpaceSum, List.map_replicate, List.sum_replicate, smul_eq_mul]

theorem codeSpaceSum_snoc (a : List Nat) (v : Nat) :
    codeSpaceSum (a ++ [v]) = codeSpaceSum a + codeSpaceWeight v := by
  simp [codeSpaceSum]

/-- The exit path of the loop: accepted only at `space = 0`, i.e. when the
lengths written so far take exactly the whole code space. -/
theorem rhclExit_ok {numSymbols symbol : Nat} {space : Int} {cls lens : List Nat}
    (hlen : cls.length = numSymbols) (hsym : symbol ≤ numSymbols)
    (hsp : space = (2 ^ 15 : Int) - (codeSpaceSum (cls.take symbol) : Int))
    (hok : (if space ≠ 0 then Except.error (-18)
      else Except.ok (listFill cls 0 symbol numSymbols)) = Except.ok lens) :
    codeSpaceSum lens = 2 ^ 15 ∧ lens.length = numSymbols := by
  by_cases hsz : space = 0
  · rw [if_neg (not_not.mpr hsz)] at hok
    injection hok with h
    subst h
    have hsum : codeSpaceSum (cls.take symbol) = 2 ^ 15 := by
      have h2 : ((codeSpaceSum (cls.take symbol) : Int)) = 2 ^ 15 := by omega
      exact_mod_cast h2
    constructor
    · unfold listFill
      rw [List.drop_eq_nil_of_le (by omega), codeSpaceSum_append, codeSpaceSum_append,
        codeSpaceSum_replicate, hsum]
      simp [codeSpaceSum, codeSpaceWeight]
    · rw [show listFill cls 0 symbol numSymbols
        = listFill cls 0 symbol cls.length from by rw [hlen],
        listFill_length _ _ _ _ (by omega) (by omega), hlen]
  · rw [if_pos hsz] at hok
    cases hok

theorem rhclRepeatStep_fst (p r rc cl ex : Nat) :
    (rhclRepeatStep p r rc cl ex).1 = if cl = 16 then p else 0 := rfl

/-- Invariant proof for the `readHuffmanCodeLengths` loop: whenever it
accepts, the nonzero code lengths written take exactly `2^15` of code space. -/
theorem rhclLoop_ok (numSymbols : Nat) (tokens : List CLToken) :
    ∀ (symbol prev rep repCL : Nat) (space : Int) (cls lens : List Nat),
      cls.length = numSymbols → symbol ≤ numSymbols →
      1 ≤ prev → prev ≤ 15 →
      space = (2 ^ 15 : Int) - (codeSpaceSum (cls.take symbol) : Int) →
      rhclLoop numSymbols tokens symbol prev rep repCL space cls = .ok lens →
      codeSpaceSum lens = 2 ^ 15 ∧ lens.length = numSymbols := by
  induction tokens with
  | nil =>
    intro symbol prev rep repCL space cls lens hlen hsym hp1 hp15 hsp hok
    rw [rhclLoop] at hok
    by_cases hguard : symbol < numSymbols ∧ 0 < space
    · rw [if_pos hguard] at hok
      cases hok
    · rw [if_neg hguard] at hok
      exact rhclExit_ok hlen hsym hsp hok
  | cons t rest ih =>
    intro symbol prev rep repCL space cls lens hlen hsym hp1 hp15 hsp hok
    rw [rhclLoop] at hok
    by_cases hguard : symbol < numSymbols ∧ 0 < space
    · rw [if_pos hguard] at hok
      obtain ⟨hsymlt, hsppos⟩ := hguard
      by_cases hlt16 : t.codeLen < 16
      · rw [if_pos hlt16] at hok
        by_cases hnz : t.codeLen ≠ 0
        · rw [if_pos hnz] at hok
          refine ih (symbol + 1) t.codeLen 0 repCL _ _ lens (by simp [hlen])
            (by omega) (by omega) (by omega) ?_ hok
          rw [take_succ_set _ _ _ (by omega), codeSpaceSum_snoc]
          have hw : (32768 >>> t.codeLen) = codeSpaceWeight t.codeLen := by
            unfold codeSpaceWeight
            rw [if_pos hnz, Nat.shiftRight_eq_div_pow,
              show (32768 : Nat) = 2 ^ 15 by norm_num,
              Nat.pow_div (by omega) (by norm_num)]
          rw [hsp, hw]
          push_cast
          ring
        · rw [if_neg hnz] at hok
          refine ih (symbol + 1) prev 0 repCL _ _ lens (by simp [hlen])
            (by omega) (by omega) (by omega) ?_ hok
          rw [take_succ_set _ _ _ (by omega), codeSpaceSum_snoc]
          have h0 : t.codeLen = 0 := by omega
          rw [hsp, h0]
          simp [codeSpaceWeight]
      · rw [if_neg hlt16] at hok
        simp only [] at hok
        set nl := (rhclRepeatStep prev rep repCL t.codeLen t.extra).1 with hnl
        set r3 := (rhclRepeatStep prev rep repCL t.codeLen t.extra).2.1 with hr3
        set d := (rhclRepeatStep prev rep repCL t.codeLen t.extra).2.2 with hd
        have hfst : nl = if t.codeLen = 16 then prev else 0 := by
          rw [hnl]
          exact rhclRepeatStep_fst prev rep repCL t.codeLen t.extra
        by_cases hover : numSymbols < symbol + d
        · rw [if_pos hover] at hok
          cases hok
        · rw [if_neg hover] at hok
          by_cases hnl0 : nl = 0
          · -- repeat-of-zeros step: the weight of length 0 is zero
            rw [if_neg (not_not.mpr hnl0)] at hok
            rw [hnl0] at hok
            refine ih (symbol + d) prev r3 0 space _ lens ?_ (by omega) hp1 hp15 ?_ hok
            · rw [← hlen]
              exact listFill_length _ _ _ _ (by omega) (by omega)
            · rw [listFill_take _ _ _ _ (by omega) (by omega), codeSpaceSum_append,
                codeSpaceSum_replicate, hsp]
              simp [codeSpaceWeight]
          · -- repeat of prevCodeLen
            rw [if_pos hnl0] at hok
            have hnlprev : nl = prev := by
              by_cases h16 : t.codeLen = 16
              · rw [hfst, if_pos h16]
              · exact absurd (by rw [hfst, if_neg h16]) hnl0
            rw [hnlprev] at hok
            refine ih (symbol + d) prev r3 prev _ _ lens ?_ (by omega) hp1 hp15 ?_ hok
            · rw [← hlen]
              exact listFill_length _ _ _ _ (by omega) (by omega)
            · rw [listFill_take _ _ _ _ (by omega) (by omega), codeSpaceSum_append,
                codeSpaceSum_replicate, hsp]
              have hw : codeSpaceWeight prev = 2 ^ (15 - prev) := by
                unfold codeSpaceWeight
                rw [if_pos (by omega)]
              rw [Nat.shiftLeft_eq, hw, Nat.add_sub_cancel_left]
              push_cast
              ring
    · rw [if_neg hguard] at hok
      exact rhclExit_ok hlen hsym hsp hok

/-- C7: the decoder accepts a complex prefix code only when the decoded
non-zero code lengths exactly fill the code space: whenever
`readHuffmanCodeLengths` returns the code-length array (rather than the
malformed-Huffman error -18, the overflow error -2, or an input error — in
which cases `readComplexHuffmanCode` returns before any table is built), the
sum of `2^(15-len)` over symbols with nonzero length `len` equals `2^15`. -/
theorem huffman_code_space_exact (tokens : List CLToken) (numSymbols : Nat)
    (lens : List Nat)
    (h : readHuffmanCodeLengthsModel tokens numSymbols = .ok lens) :
    codeSpaceSum lens = 2 ^ 15 ∧ lens.length = numSymbols := by
  refine rhclLoop_ok numSymbols tokens 0 8 0 0 32768 (List.replicate numSymbols 0)
    lens (by simp) (by omega) (by omega) (by omega) ?_ h
  simp [codeSpaceSum]

/-- Witness for `huffman_code_space_exact`: two symbols of length 1. -/
theorem huffman_code_space_exact_witness :
    codeSpaceSum [1, 1] = 2 ^ 15 ∧ ([1, 1] : List Nat).length = 2 :=
  huffman_code_space_exact [⟨1, 0⟩, ⟨1, 0⟩] 2 [1, 1] (by rfl)

/-- C8: for every lgwin in [10,24], the WBITS field written by
`encodeWindowBits(lgwin, false)` follows the RFC layout, and the decoder's
`decodeWindowBits` applied to a stream beginning with that field returns
exactly lgwin. -/
theorem windowBits_roundTrip (lgwin : Nat) (h1 : 10 ≤ lgwin) (h2 : lgwin ≤ 24) :
    encodeWindowBits lgwin false = wbitsRfcLayout lgwin ∧
    (decodeWindowBits
      (toBits (encodeWindowBits lgwin false).2 (encodeWindowBits lgwin false).1)).1
      = (lgwin : Int) := by
  interval_cases lgwin <;> exact ⟨by decide, by decide⟩

/-- Witness for `windowBits_roundTrip` at lgwin = 22. -/
theorem windowBits_roundTrip_witness :
    encodeWindowBits 22 false = wbitsRfcLayout 22 ∧
    (decodeWindowBits
      (toBits (encodeWindowBits 22 false).2 (encodeWindowBits 22 false).1)).1
      = (22 : Int) :=
  windowBits_roundTrip 22 (by decide) (by decide)

/-! ### C10: bit-sequence arithmetic -/

theorem toBits_length (n v : Nat) : (toBits n v).length = n := by
  induction n generalizing v with
  | zero => rfl
  | succ m ih => simp [toBits, ih]

theorem toBits_split (a b v : Nat) :
    toBits (a + b) v = toBits a v ++ toBits b (v / 2 ^ a) := by
  induction a generalizing v with
  | zero => simp [toBits]
  | succ m ih =>
    rw [show m + 1 + b = (m + b) + 1 from by omega]
    simp only [toBits, List.cons_append, List.cons.injEq, true_and]
    rw [ih (v / 2), show v / 2 / 2 ^ m = v / 2 ^ (m + 1) from by
      rw [Nat.div_div_eq_div_mul, ← pow_succ']]

theorem toBits_mod (n x : Nat) : toBits n (x % 2 ^ n) = toBits n x := by
  induction n generalizing x with
  | zero => rfl
  | succ m ih =>
    have h2 : x % 2 ^ (m + 1) % 2 = x % 2 :=
      Nat.mod_mod_of_dvd x (dvd_pow_self 2 (Nat.succ_ne_zero m))
    have h3 : x % 2 ^ (m + 1) / 2 = x / 2 % 2 ^ m := by
      rw [pow_succ']
      exact Nat.mod_mul_right_div_self x 2 (2 ^ m)
    simp only [toBits, h2, h3, ih, List.cons.injEq, true_and]

theorem ofBits_toBits (n v : Nat) : ofBits (toBits n v) = v % 2 ^ n := by
  induction n generalizing v with
  | zero => simp [toBits, ofBits, Nat.mod_one]
  | succ m ih =>
    have h1 : v % 2 ^ (m + 1) / 2 = v / 2 % 2 ^ m := by
      rw [pow_succ']
      exact Nat.mod_mul_right_div_self v 2 (2 ^ m)
    have h2 : v % 2 ^ (m + 1) % 2 = v % 2 :=
      Nat.mod_mod_of_dvd v (dvd_pow_self 2 (Nat.succ_ne_zero m))
    have h3 := Nat.div_add_mod (v % 2 ^ (m + 1)) 2
    rw [toBits, ofBits, ih]
    rcases Nat.mod_two_eq_zero_or_one v with h | h <;> simp [h] <;> omega

theorem take_toBits (n w v : Nat) : (toBits w v).take n = toBits (min n w) v := by
  induction n generalizing w v with
  | zero => simp [toBits]
  | succ m ih =>
    cases w with
    | zero => simp [toBits]
    | succ u =>
      rw [show min (m + 1) (u + 1) = min m u + 1 from by omega]
      simp only [toBits, List.take_succ_cons, ih]

theorem drop_toBits (p w v : Nat) : (toBits w v).drop p = toBits (w - p) (v / 2 ^ p) := by
  induction p generalizing w v with
  | zero => simp
  | succ q ih =>
    cases w with
    | zero => simp [toBits]
    | succ u =>
      simp only [toBits, List.drop_succ_cons]
      rw [ih, show u + 1 - (q + 1) = u - q from by omega,
        show v / 2 ^ (q + 1) = v / 2 / 2 ^ q from by
          rw [Nat.div_div_eq_div_mul, ← pow_succ']]

theorem toBits_zero_val (n : Nat) : toBits n 0 = List.replicate n false := by
  induction n with
  | zero => rfl
  | succ m ih => simp [toBits, ih, List.replicate_succ]

/-- Reading `k` bits at bit position `p` inside the 32-bit header. -/
theorem ofBits_header_read (H : Nat) (T : List Bool) (p k : Nat) (h : p + k ≤ 32) :
    ofBits (((toBits 32 H ++ T).drop p).take k) = H / 2 ^ p % 2 ^ k := by
  rw [List.drop_append_eq_append_drop, toBits_length,
    show p - 32 = 0 from by omega, List.drop_zero,
    List.take_append_eq_append_take, drop_toBits, toBits_length,
    show k - (32 - p) = 0 from by omega, List.take_zero, List.append_nil,
    take_toBits, show min k (32 - p) = k from by omega, ofBits_toBits]

theorem bitsToBytes_chunk (l rest : List Bool) (h : l.length = 8) :
    bitsToBytes (l ++ rest) = ofBits l :: bitsToBytes rest := by
  cases l with
  | nil => simp at h
  | cons a l' =>
    have h1 : ((a :: l') ++ rest).take 8 = a :: l' := by
      conv_lhs => rw [← h]
      rw [List.take_left]
    have h2 : ((a :: l') ++ rest).drop 8 = rest := by
      conv_lhs => rw [← h]
      rw [List.drop_left]
    rw [List.cons_append, bitsToBytes, ← List.cons_append, h1, h2]

theorem bytesToBits_cons (x : Nat) (xs : List Nat) :
    bytesToBits (x :: xs) = toBits 8 x ++ bytesToBits xs := rfl

theorem bytesToBits_length (bs : List Nat) : (bytesToBits bs).length = 8 * bs.length := by
  induction bs with
  | nil => rfl
  | cons x xs ih =>
    rw [bytesToBits_cons, List.length_append, toBits_length, ih, List.length_cons]
    ring

theorem bitsToBytes_bytesToBits_append (input : List Nat) (rest : List Bool)
    (h : ∀ x ∈ input, x < 256) :
    bitsToBytes (bytesToBits input ++ rest) = input ++ bitsToBytes rest := by
  induction input with
  | nil => rfl
  | cons x xs ih =>
    have hx : x < 2 ^ 8 := by simpa using h x (List.mem_cons_self x xs)
    rw [bytesToBits_cons, List.append_assoc,
      bitsToBytes_chunk _ _ (toBits_length _ _), ofBits_toBits,
      Nat.mod_eq_of_lt hx, ih (fun y hy => h y (by simp [hy])), List.cons_append]

theorem read_byte_at (input : List Nat) (tail : List Bool) :
    ∀ i, (∀ x ∈ input, x < 256) → i < input.length →
      ofBits (((bytesToBits input ++ tail).drop (8 * i)).take 8)
        = input.getD i 0 := by
  induction input with
  | nil =>
    intro i _ hi
    simp at hi
  | cons x xs ih =>
    intro i h hi
    cases i with
    | zero =>
      have hx : x < 2 ^ 8 := by simpa using h x (List.mem_cons_self x xs)
      rw [Nat.mul_zero, List.drop_zero, bytesToBits_cons, List.append_assoc,
        List.take_append_eq_append_take, toBits_length, Nat.sub_self,
        List.take_zero, List.append_nil, take_toBits, min_self, ofBits_toBits,
        Nat.mod_eq_of_lt hx, List.getD_cons_zero]
    | succ j =>
      rw [List.getD_cons_succ, bytesToBits_cons, List.append_assoc,
        List.drop_append_eq_append_drop, toBits_length,
        List.drop_eq_nil_of_le (by rw [toBits_length]; omega),
        List.nil_append, show 8 * (j + 1) - 8 = 8 * j from by omega]
      exact ih j (fun y hy => h y (by simp [hy])) (by simpa using hi)

theorem read_input_bytes (input : List Nat) (tail : List Bool)
    (h : ∀ x ∈ input, x < 256) :
    (List.range input.length).map
      (fun i => ofBits (((bytesToBits input ++ tail).drop (8 * i)).take 8))
      = input := by
  apply List.ext_getElem
  · simp
  · intro i h1 h2
    rw [List.getElem_map, List.getElem_range,
      read_byte_at input tail i h (by simpa using h2),
      List.getD_eq_getElem input 0 (by simpa using h2)]

theorem or_shl_eq_add (a b k : Nat) (h : a < 2 ^ k) :
    a ||| (b <<< k) = 2 ^ k * b + a := by
  rw [Nat.shiftLeft_eq, mul_comm b (2 ^ k), Nat.or_comm]
  exact (Nat.mul_add_lt_is_or h b).symm

theorem halveLoop_gt (fuel : Nat) : ∀ v m, m < v → m < halveLoop fuel v m := by
  induction fuel with
  | zero =>
    intro v m h
    simpa [halveLoop] using h
  | succ f ih =>
    intro v m h
    rw [halveLoop]
    split_ifs with h2
    · exact ih _ _ h2
    · exact h

/-! ### C10: the encoder side -/

theorem encodeMlen_small (n : Nat) (h1 : 1 ≤ n) (h2 : n < 64) :
    encodeMlen n = (n - 1, 16, 0) := by
  unfold encodeMlen
  by_cases hone : n = 1
  · rw [if_pos hone, hone]
    decide
  · have hlg : Nat.log2 (n - 1) < 6 := by
      rw [Nat.log2_lt (by omega)]
      omega
    rw [if_neg hone, log2FloorNonZero_eq]
    simp only []
    rw [if_pos (show Nat.log2 (n - 1) + 1 < 16 from by omega)]

theorem lgwin_small (n : Nat) (h1 : 1 ≤ n) (h2 : n < 64) :
    max 10 (min 24 (if n ≤ 1 then 10 else jsCeilLog2 n + 1)) = 10 := by
  by_cases hone : n ≤ 1
  · rw [if_pos hone]
    omega
  · rw [if_neg hone]
    unfold jsCeilLog2
    have hc : Nat.clog 2 n ≤ 6 :=
      (Nat.le_pow_iff_clog_le (by norm_num)).mp (by norm_num; omega)
    omega

theorem storeUncompressed_small (input : List Nat) (h1 : 1 ≤ input.length)
    (h2 : input.length < 64) :
    storeUncompressedMetaBlock (toBits 7 33) input 0 (input.length - 1)
      input.length true
      = some (toBits 32 (uncompressedHeader input.length)
          ++ (bytesToBits input ++ toBits 8 3)) := by
  have hml := encodeMlen_small input.length h1 h2
  have hhdr : storeUncompressedMetaBlockHeader (toBits 7 33) input.length
      = toBits 7 33 ++ (toBits 1 0 ++ (toBits 2 0
        ++ (toBits 16 (input.length - 1) ++ toBits 1 1))) := by
    simp only [storeUncompressedMetaBlockHeader, hml, writeBits, List.append_assoc]
  have hlen27 : (storeUncompressedMetaBlockHeader (toBits 7 33) input.length).length
      = 27 := by
    rw [hhdr]
    simp [toBits_length]
  have halign : alignToByte (storeUncompressedMetaBlockHeader (toBits 7 33)
        input.length)
      = toBits 32 (uncompressedHeader input.length) := by
    unfold alignToByte
    rw [hlen27, hhdr, show ((8 - 27 % 8) % 8 : Nat) = 5 from by norm_num,
      ← toBits_zero_val 5,
      show (32 : Nat) = 7 + (1 + (2 + (16 + (1 + 5)))) from rfl,
      toBits_split, toBits_split, toBits_split, toBits_split, toBits_split]
    simp only [Nat.div_div_eq_div_mul, List.append_assoc]
    norm_num
    rw [← toBits_mod 7 (uncompressedHeader input.length),
      show uncompressedHeader input.length % 2 ^ 7 = 33 from by
        norm_num [uncompressedHeader]; omega,
      ← toBits_mod 1 (uncompressedHeader input.length / 128),
      show uncompressedHeader input.length / 128 % 2 ^ 1 = 0 from by
        norm_num [uncompressedHeader]; omega,
      ← toBits_mod 2 (uncompressedHeader input.length / 256),
      show uncompressedHeader input.length / 256 % 2 ^ 2 = 0 from by
        norm_num [uncompressedHeader]; omega,
      ← toBits_mod 16 (uncompressedHeader input.length / 1024),
      show uncompressedHeader input.length / 1024 % 2 ^ 16 = input.length - 1 from by
        norm_num [uncompressedHeader]; omega,
      ← toBits_mod 1 (uncompressedHeader input.length / 67108864),
      show uncompressedHeader input.length / 67108864 % 2 ^ 1 = 1 from by
        norm_num [uncompressedHeader]; omega,
      ← toBits_mod 5 (uncompressedHeader input.length / 134217728),
      show uncompressedHeader input.length / 134217728 % 2 ^ 5 = 0 from by
        norm_num [uncompressedHeader]; omega]
  have htail : toBits 1 1 ++ (toBits 1 1 ++ List.replicate 6 false) = toBits 8 3 := by
    decide
  have hfin : alignToByte (writeBits (writeBits
        (toBits 32 (uncompressedHeader input.length) ++ bytesToBits input) 1 1) 1 1)
      = toBits 32 (uncompressedHeader input.length)
        ++ (bytesToBits input ++ toBits 8 3) := by
    unfold writeBits alignToByte
    have hlen : (((toBits 32 (uncompressedHeader input.length)
          ++ bytesToBits input) ++ toBits 1 1) ++ toBits 1 1).length
        = 34 + 8 * input.length := by
      simp only [List.length_append, toBits_length, bytesToBits_length]
      omega
    rw [hlen, show ((8 - (34 + 8 * input.length) % 8) % 8 : Nat) = 6 from by omega,
      ← htail]
    simp only [List.append_assoc]
  have hwb : writeBytes (toBits 32 (uncompressedHeader input.length)) input
      = some (toBits 32 (uncompressedHeader input.length) ++ bytesToBits input) := by
    unfold writeBytes
    rw [toBits_length, if_pos (by norm_num)]
  unfold storeUncompressedMetaBlock
  simp only []
  rw [halign, Nat.zero_and,
    if_neg (show ¬ input.length - 1 + 1 < 0 + input.length from by omega),
    List.drop_zero, List.take_length, hwb]
  simp only [if_true]
  rw [hfin]

theorem encodeUncompressed_eq (input : List Nat) (h1 : 1 ≤ input.length)
    (h2 : input.length < 64) (hb : ∀ x ∈ input, x < 256) :
    encodeUncompressed input
      = some (bitsToBytes (toBits 32 (uncompressedHeader input.length)
          ++ (bytesToBits input ++ toBits 8 3))) := by
  have hstore := storeUncompressed_small input h1 h2
  have hloop : encodeUncompressedLoop input (input.length + 1) 0 (toBits 7 33)
      = some (toBits 32 (uncompressedHeader input.length)
          ++ (bytesToBits input ++ toBits 8 3)) := by
    rw [encodeUncompressedLoop, if_pos (by omega)]
    have hbs : min (input.length - 0) ((1 <<< 24) - 1) = input.length := by
      rw [Nat.shiftLeft_eq]
      norm_num
      omega
    simp only [hbs, Nat.zero_add]
    rw [show decide (input.length ≤ input.length) = true from by simp, hstore]
    simp only []
    obtain ⟨m, hm⟩ : ∃ m, input.length = m + 1 := ⟨input.length - 1, by omega⟩
    rw [hm, encodeUncompressedLoop, if_neg (by omega)]
  unfold encodeUncompressed
  rw [lgwin_small input.length h1 h2]
  simp only []
  rw [show (encodeWindowBits 10 false).2 = 7 from by decide,
    show (encodeWindowBits 10 false).1 = 33 from by decide]
  simp only [writeBits, List.nil_append]
  rw [hloop]
  rfl

theorem stream_bytes_eq (input : List Nat) (h1 : 1 ≤ input.length)
    (h2 : input.length < 64) (hb : ∀ x ∈ input, x < 256) :
    bitsToBytes (toBits 32 (uncompressedHeader input.length)
      ++ (bytesToBits input ++ toBits 8 3)) = uncompressedStream input := by
  have hnil : bitsToBytes ([] : List Bool) = [] := by rw [bitsToBytes]
  have hlast : bitsToBytes (toBits 8 3) = [3] := by
    rw [← List.append_nil (toBits 8 3), bitsToBytes_chunk _ _ (toBits_length _ _),
      hnil, ofBits_toBits]
    norm_num
  rw [show (32 : Nat) = 8 + (8 + (8 + 8)) from rfl, toBits_split, toBits_split,
    toBits_split]
  simp only [Nat.div_div_eq_div_mul, List.append_assoc]
  norm_num
  rw [bitsToBytes_chunk _ _ (toBits_length _ _),
    bitsToBytes_chunk _ _ (toBits_length _ _),
    bitsToBytes_chunk _ _ (toBits_length _ _),
    bitsToBytes_chunk _ _ (toBits_length _ _),
    bitsToBytes_bytesToBits_append input _ hb, hlast]
  simp only [ofBits_toBits]
  unfold uncompressedStream
  norm_num [uncompressedHeader]
  refine ⟨by omega, by omega, by omega, by omega⟩

theorem streamBits_eq (input : List Nat) (h1 : 1 ≤ input.length)
    (h2 : input.length < 64) :
    bytesToBits (uncompressedStream input)
      = toBits 32 (uncompressedHeader input.length)
        ++ (bytesToBits input ++ toBits 8 3) := by
  have happ : bytesToBits (input ++ [3]) = bytesToBits input ++ toBits 8 3 := by
    unfold bytesToBits
    rw [List.flatMap_append]
    simp
  unfold uncompressedStream
  rw [bytesToBits_cons, bytesToBits_cons, bytesToBits_cons, bytesToBits_cons, happ,
    show (32 : Nat) = 8 + (8 + (8 + 8)) from rfl, toBits_split, toBits_split,
    toBits_split]
  simp only [Nat.div_div_eq_div_mul, List.append_assoc]
  norm_num
  rw [← toBits_mod 8 (uncompressedHeader input.length),
    show uncompressedHeader input.length % 2 ^ 8 = 33 from by
      norm_num [uncompressedHeader]; omega,
    ← toBits_mod 8 (uncompressedHeader input.length / 256),
    show uncompressedHeader input.length / 256 % 2 ^ 8 = 4 * (input.length - 1)
      from by norm_num [uncompressedHeader]; omega,
    ← toBits_mod 8 (uncompressedHeader input.length / 65536),
    show uncompressedHeader input.length / 65536 % 2 ^ 8 = 0 from by
      norm_num [uncompressedHeader]; omega,
    ← toBits_mod 8 (uncompressedHeader input.length / 16777216),
    show uncompressedHeader input.length / 16777216 % 2 ^ 8 = 4 from by
      norm_num [uncompressedHeader]; omega]

theorem peekBit_eq (bytes : List Nat) (p : Nat) :
    peekBit bytes p = bytes.getD (p / 8) 0 / 2 ^ (p % 8) % 2 := by
  unfold peekBit
  rw [Nat.and_one_is_mod, Nat.shiftRight_eq_div_pow,
    show (7 : Nat) = 2 ^ 3 - 1 from rfl, Nat.and_pow_two_sub_one_eq_mod,
    Nat.shiftRight_eq_div_pow]

theorem peek_stream (input : List Nat) (h1 : 1 ≤ input.length)
    (h2 : input.length < 64) :
    peekDecodedSize (uncompressedStream input) = -1 := by
  have hskip : peekSkipWindow (uncompressedStream input) = some 7 := by
    unfold peekSkipWindow
    norm_num [peekReadBits, peekBit_eq, uncompressedStream]
  have e7 : peekReadBits (uncompressedStream input) 7 1 = 0 := by
    norm_num [peekReadBits, peekBit_eq, uncompressedStream]
  have e8 : peekReadBits (uncompressedStream input) 8 2 = 0 := by
    norm_num [peekReadBits, peekBit_eq, uncompressedStream]
    omega
  unfold peekDecodedSize
  rw [hskip]
  simp only [e7]
  norm_num [e8]

theorem wrapperOutputSize_stream (input : List Nat) (h1 : 1 ≤ input.length)
    (h2 : input.length < 64) :
    wrapperOutputSize (uncompressedStream input) = none := by
  unfold wrapperOutputSize
  rw [peek_stream input h1 h2]
  norm_num

/-! ### C10: the decoder trace on the produced stream -/

theorem readBitsL_fst (n : Nat) (bs : List Bool) :
    (readBitsL n bs).1 = ofBits (bs.take n) := rfl

theorem readBitsL_snd (n : Nat) (bs : List Bool) :
    (readBitsL n bs).2 = bs.drop n := rfl

theorem streamB_length (input : List Nat) :
    (toBits 32 (uncompressedHeader input.length)
      ++ (bytesToBits input ++ toBits 8 3)).length = 40 + 8 * input.length := by
  simp only [List.length_append, toBits_length, bytesToBits_length]
  omega

theorem decodeWindowBits_stream (input : List Nat) (h1 : 1 ≤ input.length)
    (h2 : input.length < 64) :
    decodeWindowBits (toBits 32 (uncompressedHeader input.length)
        ++ (bytesToBits input ++ toBits 8 3))
      = (10, (toBits 32 (uncompressedHeader input.length)
          ++ (bytesToBits input ++ toBits 8 3)).drop 7) := by
  unfold decodeWindowBits
  simp only [readBitsL_fst, readBitsL_snd, List.drop_drop]
  rw [show (toBits 32 (uncompressedHeader input.length)
        ++ (bytesToBits input ++ toBits 8 3)).take 1
      = ((toBits 32 (uncompressedHeader input.length)
        ++ (bytesToBits input ++ toBits 8 3)).drop 0).take 1 from by
      rw [List.drop_zero],
    ofBits_header_read _ _ 0 1 (by omega),
    ofBits_header_read _ _ 1 3 (by omega),
    ofBits_header_read _ _ 4 3 (by omega),
    show uncompressedHeader input.length / 2 ^ 0 % 2 ^ 1 = 1 from by
      norm_num [uncompressedHeader]; omega,
    show uncompressedHeader input.length / 2 ^ 1 % 2 ^ 3 = 0 from by
      norm_num [uncompressedHeader]; omega,
    show uncompressedHeader input.length / 2 ^ 4 % 2 ^ 3 = 2 from by
      norm_num [uncompressedHeader]; omega]
  norm_num

theorem dmbl_first (input : List Nat) (h1 : 1 ≤ input.length)
    (h2 : input.length < 64) (s : DecState)
    (hbits : s.bits = toBits 32 (uncompressedHeader input.length)
      ++ (bytesToBits input ++ toBits 8 3))
    (hpos : s.bitPos = 7) :
    decodeMetaBlockLength s = .ok { s with
      bitPos := 27, inputEnd := 0, metaBlockLength := input.length,
      isUncompressed := 1, isMetadata := 0 } := by
  have hv : ∀ p k, p + k ≤ 32 →
      ofBits ((s.bits.drop p).take k)
        = uncompressedHeader input.length / 2 ^ p % 2 ^ k := by
    intro p k h
    rw [hbits]
    exact ofBits_header_read _ _ p k h
  simp only [decodeMetaBlockLength, dmblTail, dmblNibbleLoop, readF, hpos]
  rw [hv 7 1 (by omega),
    show uncompressedHeader input.length / 2 ^ 7 % 2 ^ 1 = 0 from by
      norm_num [uncompressedHeader]; omega]
  norm_num
  rw [hv 8 2 (by omega),
    show uncompressedHeader input.length / 2 ^ 8 % 2 ^ 2 = 0 from by
      norm_num [uncompressedHeader]; omega]
  norm_num [dmblNibbleLoop, readF]
  rw [hv 10 4 (by omega),
    hv 14 4 (by omega),
    hv 18 4 (by omega),
    hv 22 4 (by omega),
    hv 26 1 (by omega),
    show uncompressedHeader input.length / 2 ^ 18 % 2 ^ 4 = 0 from by
      norm_num [uncompressedHeader]; omega,
    show uncompressedHeader input.length / 2 ^ 22 % 2 ^ 4 = 0 from by
      norm_num [uncompressedHeader]; omega,
    show uncompressedHeader input.length / 2 ^ 26 % 2 ^ 1 = 1 from by
      norm_num [uncompressedHeader]; omega]
  norm_num [Nat.shiftLeft_eq]
  norm_num [uncompressedHeader]
  omega

theorem header_read_at (input : List Nat) (s : DecState)
    (hbits : s.bits = toBits 32 (uncompressedHeader input.length)
      ++ (bytesToBits input ++ toBits 8 3)) :
    ∀ p k, p + k ≤ 32 → ofBits ((s.bits.drop p).take k)
      = uncompressedHeader input.length / 2 ^ p % 2 ^ k := by
  intro p k h
  rw [hbits]
  exact ofBits_header_read _ _ p k h

theorem jump_27 (input : List Nat) (h1 : 1 ≤ input.length)
    (h2 : input.length < 64) (s : DecState)
    (hbits : s.bits = toBits 32 (uncompressedHeader input.length)
      ++ (bytesToBits input ++ toBits 8 3))
    (hpos : s.bitPos = 27) :
    jumpToByteBoundary s = .ok { s with bitPos := 32 } := by
  have hv := header_read_at input s hbits
  simp only [jumpToByteBoundary, readF, hpos]
  norm_num
  rw [hv 27 5 (by omega),
    show uncompressedHeader input.length / 2 ^ 27 % 2 ^ 5 = 0 from by
      norm_num [uncompressedHeader]; omega]
  norm_num

theorem mrr_first (input : List Nat) (h1 : 1 ≤ input.length)
    (h2 : input.length < 64) (s : DecState)
    (hie : s.inputEnd = 0) (hets : s.expectedTotalSize = input.length)
    (hmax : s.maxRingBufferSize = 1024) (hrbs : s.ringBufferSize = 0)
    (hrb : s.ringBuffer = []) :
    maybeReallocateRingBuffer s = { s with
      ringBuffer := List.replicate (halveLoop 32 1024 input.length + 37) 0,
      ringBufferSize := halveLoop 32 1024 input.length } := by
  have hR := halveLoop_gt 32 1024 input.length (by omega)
  simp only [maybeReallocateRingBuffer, hie, hets, hmax, hrbs, hrb]
  rw [if_pos (show input.length < 1024 from by omega)]
  norm_num
  intro h
  exact absurd h (by omega)

theorem rnmh_first (input : List Nat) (h1 : 1 ≤ input.length)
    (h2 : input.length < 64) (s : DecState)
    (hbits : s.bits = toBits 32 (uncompressedHeader input.length)
      ++ (bytesToBits input ++ toBits 8 3))
    (hpos : s.bitPos = 7) (hie : s.inputEnd = 0)
    (hets : s.expectedTotalSize = 0) (hmax : s.maxRingBufferSize = 1024)
    (hrbs : s.ringBufferSize = 0) (hrb : s.ringBuffer = []) :
    readNextMetablockHeader s = .ok { s with
      bitPos := 32, inputEnd := 0, metaBlockLength := input.length,
      isUncompressed := 1, isMetadata := 0, runningState := 6,
      expectedTotalSize := input.length,
      ringBuffer := List.replicate (halveLoop 32 1024 input.length + 37) 0,
      ringBufferSize := halveLoop 32 1024 input.length } := by
  have hne : input.length ≠ 0 := by omega
  simp only [readNextMetablockHeader, hie]
  norm_num
  rw [dmbl_first input h1 h2 s hbits hpos]
  simp only []
  norm_num [hne]
  rw [jump_27 input h1 h2 { s with
      bitPos := 27, inputEnd := 0, metaBlockLength := input.length,
      isUncompressed := 1, isMetadata := 0 }
    (by simpa using hbits) (by simp)]
  simp only []
  norm_num [hets]
  rw [show min input.length (1 <<< 30) = input.length from by
    rw [Nat.shiftLeft_eq]; norm_num; omega]
  rw [if_pos (show s.ringBufferSize < s.maxRingBufferSize from by
    rw [hrbs, hmax]; norm_num)]
  rw [mrr_first input h1 h2 { s with
      bitPos := 32, inputEnd := 0, metaBlockLength := input.length,
      isUncompressed := 1, isMetadata := 0, runningState := 6,
      expectedTotalSize := input.length }
    (by simp) (by simp) (by simpa using hmax) (by simpa using hrbs)
    (by simpa using hrb)]

theorem cud_first (input : List Nat) (h1 : 1 ≤ input.length)
    (h2 : input.length < 64) (hb : ∀ x ∈ input, x < 256) (s : DecState)
    (hbits : s.bits = toBits 32 (uncompressedHeader input.length)
      ++ (bytesToBits input ++ toBits 8 3))
    (hpos : s.bitPos = 32) (hmbl : s.metaBlockLength = input.length)
    (hrbs : s.ringBufferSize = halveLoop 32 1024 input.length)
    (hrb : s.ringBuffer
      = List.replicate (halveLoop 32 1024 input.length + 37) 0)
    (hp : s.pos = 0) :
    copyUncompressedData s = .ok { s with
      bitPos := 32 + 8 * input.length, metaBlockLength := 0,
      pos := input.length,
      ringBuffer := input ++ List.replicate
        (halveLoop 32 1024 input.length + 37 - input.length) 0,
      runningState := 2 } := by
  have hR := halveLoop_gt 32 1024 input.length (by omega)
  have hne : input.length ≠ 0 := by omega
  have hbytes : (List.range input.length).map
      (fun i => ofBits ((s.bits.drop (32 + 8 * i)).take 8)) = input := by
    have hpt : ∀ i ∈ List.range input.length,
        (fun i => ofBits ((s.bits.drop (32 + 8 * i)).take 8)) i
          = (fun i => ofBits (((bytesToBits input ++ toBits 8 3).drop
              (8 * i)).take 8)) i := by
      intro i _
      simp only []
      rw [hbits, List.drop_append_eq_append_drop, toBits_length,
        List.drop_eq_nil_of_le (by rw [toBits_length]; omega), List.nil_append,
        show 32 + 8 * i - 32 = 8 * i from by omega]
    rw [List.map_congr_left hpt]
    exact read_input_bytes input _ hb
  simp only [copyUncompressedData, copyRawBytes, checkHealth, overwriteAt,
    hmbl, hrbs, hrb, hp, hpos, hne]
  norm_num
  rw [show min (halveLoop 32 1024 input.length) input.length = input.length
      from by omega, hbytes,
    if_neg (show ¬ s.bits.length / 8 < (32 + 8 * input.length + 7) / 8 from by
      rw [hbits, streamB_length]; omega)]
  norm_num [List.drop_replicate]
  omega

theorem rnmh_second (input : List Nat) (h1 : 1 ≤ input.length)
    (h2 : input.length < 64) (s : DecState)
    (hbits : s.bits = toBits 32 (uncompressedHeader input.length)
      ++ (bytesToBits input ++ toBits 8 3))
    (hpos : s.bitPos = 32 + 8 * input.length) (hie : s.inputEnd = 0) :
    readNextMetablockHeader s = .ok { s with
      bitPos := 32 + 8 * input.length + 1 + 1, inputEnd := 1,
      metaBlockLength := 0, isUncompressed := 0, isMetadata := 0 } := by
  have htail : ∀ m, s.bits.drop (32 + 8 * input.length + m)
      = (toBits 8 3).drop m := by
    intro m
    rw [hbits, List.drop_append_eq_append_drop, toBits_length,
      List.drop_eq_nil_of_le (by rw [toBits_length]; omega), List.nil_append,
      List.drop_append_eq_append_drop,
      List.drop_eq_nil_of_le (by rw [bytesToBits_length]; omega),
      List.nil_append, bytesToBits_length,
      show 32 + 8 * input.length + m - 32 - 8 * input.length = m from by omega]
  have ht0 : s.bits.drop (32 + 8 * input.length) = toBits 8 3 := by
    have := htail 0
    simpa using this
  simp only [readNextMetablockHeader, decodeMetaBlockLength, readF, hie, hpos]
  norm_num
  rw [ht0, show ofBits ((toBits 8 3).take 1) = 1 from by decide]
  norm_num
  rw [htail 1, show ofBits (((toBits 8 3).drop 1).take 1) = 1 from by decide]
  norm_num

theorem rnmh_last (s : DecState) (hie : s.inputEnd = 1) :
    readNextMetablockHeader s
      = .ok { s with nextRunningState := 10, runningState := 12 } := by
  simp only [readNextMetablockHeader, hie]
  norm_num

theorem wrb_final (input : List Nat) (h1 : 1 ≤ input.length)
    (h2 : input.length < 64) (s : DecState)
    (hout : s.output = List.replicate 16384 0) (hu : s.outputUsed = 0)
    (hol : s.outputLength = 16384)
    (hready : s.ringBufferBytesReady = input.length)
    (hwritten : s.ringBufferBytesWritten = 0)
    (hrb : s.ringBuffer = input ++ List.replicate
      (halveLoop 32 1024 input.length + 37 - input.length) 0) :
    writeRingBuffer s = (0, { s with
      output := input ++ List.replicate (16384 - input.length) 0,
      outputUsed := input.length,
      ringBufferBytesWritten := input.length }) := by
  have hne : input.length ≠ 0 := by omega
  simp only [writeRingBuffer, overwriteAt, hout, hu, hol, hready, hwritten, hrb]
  rw [show min (16384 - 0) (input.length - 0) = input.length from by omega,
    if_pos hne, List.drop_zero, List.take_left]
  norm_num [List.drop_replicate]
  omega

theorem jump_trailer (input : List Nat) (h1 : 1 ≤ input.length)
    (h2 : input.length < 64) (s : DecState)
    (hbits : s.bits = toBits 32 (uncompressedHeader input.length)
      ++ (bytesToBits input ++ toBits 8 3))
    (hpos : s.bitPos = 32 + 8 * input.length + 1 + 1) :
    jumpToByteBoundary s = .ok { s with
      bitPos := 32 + 8 * input.length + 1 + 1 + 6 } := by
  have htail : ∀ m, s.bits.drop (32 + 8 * input.length + m)
      = (toBits 8 3).drop m := by
    intro m
    rw [hbits, List.drop_append_eq_append_drop, toBits_length,
      List.drop_eq_nil_of_le (by rw [toBits_length]; omega), List.nil_append,
      List.drop_append_eq_append_drop,
      List.drop_eq_nil_of_le (by rw [bytesToBits_length]; omega),
      List.nil_append, bytesToBits_length,
      show 32 + 8 * input.length + m - 32 - 8 * input.length = m from by omega]
  simp only [jumpToByteBoundary, readF, hpos]
  rw [show ((8 - (32 + 8 * input.length + 1 + 1) % 8) % 8 : Nat) = 6 from by
    omega]
  norm_num
  rw [show 32 + 8 * input.length + 1 + 1 = 32 + 8 * input.length + 2 from by
      omega, htail 2,
    show ofBits (((toBits 8 3).drop 2).take 6) = 0 from by decide]
  norm_num

theorem checkHealth_trailer (input : List Nat) (s : DecState)
    (hbits : s.bits = toBits 32 (uncompressedHeader input.length)
      ++ (bytesToBits input ++ toBits 8 3))
    (hpos : s.bitPos = 32 + 8 * input.length + 1 + 1 + 6) :
    checkHealth s true = .ok s := by
  simp only [checkHealth, hpos]
  rw [if_neg (show ¬ s.bits.length / 8
      < (32 + 8 * input.length + 1 + 1 + 6 + 7) / 8 from by
    rw [hbits, streamB_length]; omega)]
  rw [if_neg (show ¬ (True ∧ (32 + 8 * input.length + 1 + 1 + 6 + 7) / 8
      ≠ s.bits.length / 8) from by
    rw [hbits, streamB_length]
    norm_num
    omega)]

/-- The whole `decompress` run on the produced stream, from a fresh state:
it returns 1 with the input in the first `input.length` output bytes. -/
theorem decompressRun_stream (input : List Nat) (h1 : 1 ≤ input.length)
    (h2 : input.length < 64) (hb : ∀ x ∈ input, x < 256) (s : DecState)
    (hbits : s.bits = toBits 32 (uncompressedHeader input.length)
      ++ (bytesToBits input ++ toBits 8 3))
    (hpos : s.bitPos = 7) (hrs : s.runningState = 2)
    (hie : s.inputEnd = 0) (hets : s.expectedTotalSize = 0)
    (hmax : s.maxRingBufferSize = 1024) (hrbs : s.ringBufferSize = 0)
    (hrb : s.ringBuffer = []) (hp : s.pos = 0)
    (hout : s.output = List.replicate 16384 0) (hu : s.outputUsed = 0)
    (hol : s.outputLength = 16384) (hw : s.ringBufferBytesWritten = 0) :
    ∃ t : DecState, decompressRun 100000 s = .ok (1, t)
      ∧ t.outputUsed = input.length
      ∧ t.output = input ++ List.replicate (16384 - input.length) 0 := by
  have hR := halveLoop_gt 32 1024 input.length (by omega)
  -- state 2: first metablock header
  rw [show (100000 : Nat) = 99999 + 1 from by norm_num, decompressRun, hrs,
    if_neg (show ¬ (2 : Nat) = 10 from by decide),
    if_pos (show (2 : Nat) = 2 from rfl),
    rnmh_first input h1 h2 s hbits hpos hie hets hmax hrbs hrb]
  dsimp only
  -- state 6: uncompressed copy
  rw [show (99999 : Nat) = 99998 + 1 from by norm_num, decompressRun]
  dsimp only
  rw [if_neg (show ¬ (6 : Nat) = 10 from by decide),
    if_neg (show ¬ (6 : Nat) = 2 from by decide),
    if_pos (show (6 : Nat) = 6 from rfl),
    cud_first input h1 h2 hb { s with
      bitPos := 32, inputEnd := 0, metaBlockLength := input.length,
      isUncompressed := 1, isMetadata := 0, runningState := 6,
      expectedTotalSize := input.length,
      ringBuffer := List.replicate (halveLoop 32 1024 input.length + 37) 0,
      ringBufferSize := halveLoop 32 1024 input.length }
    hbits rfl rfl rfl rfl
    hp]
  dsimp only
  -- state 2: the last-empty metablock header
  rw [show (99998 : Nat) = 99997 + 1 from by norm_num, decompressRun]
  dsimp only
  rw [if_neg (show ¬ (2 : Nat) = 10 from by decide),
    if_pos (show (2 : Nat) = 2 from rfl),
    rnmh_second input h1 h2 { s with
      bitPos := 32 + 8 * input.length, runningState := 2, inputEnd := 0,
      metaBlockLength := 0, isUncompressed := 1, isMetadata := 0,
      pos := input.length,
      ringBuffer := input ++ List.replicate
        (halveLoop 32 1024 input.length + 37 - input.length) 0,
      ringBufferSize := halveLoop 32 1024 input.length,
      expectedTotalSize := input.length }
    hbits rfl rfl]
  dsimp only
  -- state 2 once more: the previous header set inputEnd
  rw [show (99997 : Nat) = 99996 + 1 from by norm_num, decompressRun]
  dsimp only
  rw [if_neg (show ¬ (2 : Nat) = 10 from by decide),
    if_pos (show (2 : Nat) = 2 from rfl),
    rnmh_last { s with
      bitPos := 32 + 8 * input.length + 1 + 1, runningState := 2,
      inputEnd := 1, metaBlockLength := 0, isUncompressed := 0,
      isMetadata := 0, pos := input.length,
      ringBuffer := input ++ List.replicate
        (halveLoop 32 1024 input.length + 37 - input.length) 0,
      ringBufferSize := halveLoop 32 1024 input.length,
      expectedTotalSize := input.length }
    rfl]
  dsimp only
  -- state 12: mark the ready bytes
  rw [show (99996 : Nat) = 99995 + 1 from by norm_num, decompressRun]
  dsimp only
  rw [if_neg (show ¬ (12 : Nat) = 10 from by decide),
    if_neg (show ¬ (12 : Nat) = 2 from by decide),
    if_neg (show ¬ (12 : Nat) = 6 from by decide),
    if_pos (show (12 : Nat) = 12 from rfl),
    show min input.length (halveLoop 32 1024 input.length) = input.length
      from by omega]
  -- state 13: write the ring buffer to the output
  rw [show (99995 : Nat) = 99994 + 1 from by norm_num, decompressRun]
  dsimp only
  rw [if_neg (show ¬ (13 : Nat) = 10 from by decide),
    if_neg (show ¬ (13 : Nat) = 2 from by decide),
    if_neg (show ¬ (13 : Nat) = 6 from by decide),
    if_neg (show ¬ (13 : Nat) = 12 from by decide),
    if_pos (show (13 : Nat) = 13 from rfl),
    wrb_final input h1 h2 { s with
      bitPos := 32 + 8 * input.length + 1 + 1, runningState := 13,
      nextRunningState := 10, inputEnd := 1, metaBlockLength := 0,
      isUncompressed := 0, isMetadata := 0, pos := input.length,
      ringBuffer := input ++ List.replicate
        (halveLoop 32 1024 input.length + 37 - input.length) 0,
      ringBufferSize := halveLoop 32 1024 input.length,
      expectedTotalSize := input.length,
      ringBufferBytesReady := input.length }
    hout hu hol
    rfl hw rfl]
  dsimp only
  rw [if_neg (show ¬ (0 : Nat) ≠ 0 from by decide),
    if_neg (show ¬ halveLoop 32 1024 input.length ≤ input.length
      from by omega)]
  dsimp only
  -- state 10: trailer checks and return
  rw [show (99994 : Nat) = 99993 + 1 from by norm_num, decompressRun]
  dsimp only
  rw [if_pos (show (10 : Nat) = 10 from rfl),
    jump_trailer input h1 h2 { s with
      bitPos := 32 + 8 * input.length + 1 + 1, runningState := 10,
      nextRunningState := 10, inputEnd := 1, metaBlockLength := 0,
      isUncompressed := 0, isMetadata := 0, pos := input.length,
      ringBuffer := input ++ List.replicate
        (halveLoop 32 1024 input.length + 37 - input.length) 0,
      ringBufferSize := halveLoop 32 1024 input.length,
      expectedTotalSize := input.length,
      ringBufferBytesReady := input.length,
      ringBufferBytesWritten := input.length,
      output := input ++ List.replicate (16384 - input.length) 0,
      outputUsed := input.length }
    hbits rfl]
  dsimp only
  rw [checkHealth_trailer input { s with
      bitPos := 32 + 8 * input.length + 1 + 1 + 6, runningState := 10,
      nextRunningState := 10, inputEnd := 1, metaBlockLength := 0,
      isUncompressed := 0, isMetadata := 0, pos := input.length,
      ringBuffer := input ++ List.replicate
        (halveLoop 32 1024 input.length + 37 - input.length) 0,
      ringBufferSize := halveLoop 32 1024 input.length,
      expectedTotalSize := input.length,
      ringBufferBytesReady := input.length,
      ringBufferBytesWritten := input.length,
      output := input ++ List.replicate (16384 - input.length) 0,
      outputUsed := input.length }
    hbits rfl]
  dsimp only
  exact ⟨_, rfl, by simp, by simp⟩

theorem decompressModel_stream (input : List Nat) (h1 : 1 ≤ input.length)
    (h2 : input.length < 64) (hb : ∀ x ∈ input, x < 256) :
    ∃ t : DecState, decompressModel (uncompressedStream input) 16384
        = .ok (1, t)
      ∧ t.outputUsed = input.length
      ∧ t.output = input ++ List.replicate (16384 - input.length) 0 := by
  unfold decompressModel
  rw [streamBits_eq input h1 h2]
  dsimp only
  rw [decodeWindowBits_stream input h1 h2]
  dsimp only
  rw [if_neg (show ¬ ((10 : Int) = -1) from by decide), List.length_drop,
    streamB_length,
    show 40 + 8 * input.length - (40 + 8 * input.length - 7) = 7 from by omega,
    show ((10 : Int).toNat) = 10 from rfl,
    show (1 <<< 10 : Nat) = 1024 from by norm_num [Nat.shiftLeft_eq]]
  exact decompressRun_stream input h1 h2 hb
    { bits := toBits 32 (uncompressedHeader input.length)
        ++ (bytesToBits input ++ toBits 8 3),
      bitPos := 7, runningState := 2, nextRunningState := 0, inputEnd := 0,
      metaBlockLength := 0, isUncompressed := 0, isMetadata := 0, pos := 0,
      ringBuffer := [], ringBufferSize := 0, maxRingBufferSize := 1024,
      expectedTotalSize := 0, ringBufferBytesReady := 0,
      ringBufferBytesWritten := 0, output := List.replicate 16384 0,
      outputUsed := 0, outputLength := 16384 }
    rfl rfl rfl rfl rfl rfl rfl rfl rfl rfl rfl rfl rfl

theorem decode_stream (input : List Nat) (h1 : 1 ≤ input.length)
    (h2 : input.length < 64) (hb : ∀ x ∈ input, x < 256) :
    brotliDecodeChunkedModel (uncompressedStream input) = .ok input := by
  obtain ⟨t, ht, htu, hto⟩ := decompressModel_stream input h1 h2 hb
  unfold brotliDecodeChunkedModel
  rw [ht]
  dsimp only
  rw [htu, hto, if_pos (show input.length < 16384 from by omega),
    List.take_left]

/-- C10: for every non-empty input shorter than 64 bytes, `brotliEncode`
dispatches to `encodeUncompressed` regardless of the requested quality (the
quality option only selects among `encodeFast`/`encodeStandard` for inputs
of at least 64 bytes), the stream it emits frames the input raw in an
uncompressed metablock followed by the empty last metablock, the wrapper
takes the chunked decode path (the size peek reports a multi-metablock
stream), and that chunked decode restores the original input exactly. -/
theorem smallInput_uncompressed_roundtrip (input : List Nat) (q : Option Int)
    (h1 : 1 ≤ input.length) (h2 : input.length < 64)
    (hb : ∀ x ∈ input, x < 256) :
    brotliEncodeDispatch input.length (brotliEncodeQuality q)
      = EncodePath.uncompressed ∧
    encodeUncompressed input = some (uncompressedStream input) ∧
    wrapperOutputSize (uncompressedStream input) = none ∧
    brotliDecodeChunkedModel (uncompressedStream input) = .ok input := by
  refine ⟨?_, ?_, wrapperOutputSize_stream input h1 h2,
    decode_stream input h1 h2 hb⟩
  · unfold brotliEncodeDispatch
    rw [if_neg (show ¬ input.length = 0 from by omega), if_pos (Or.inr h2)]
  · rw [encodeUncompressed_eq input h1 h2 hb, stream_bytes_eq input h1 h2 hb]

/-- Witness for `smallInput_uncompressed_roundtrip`: the one-byte input
`[7]` at quality 5. -/
theorem smallInput_uncompressed_roundtrip_witness :
    brotliEncodeDispatch ([7] : List Nat).length (brotliEncodeQuality (some 5))
      = EncodePath.uncompressed ∧
    encodeUncompressed [7] = some (uncompressedStream [7]) ∧
    wrapperOutputSize (uncompressedStream [7]) = none ∧
    brotliDecodeChunkedModel (uncompressedStream [7]) = .ok [7] :=
  smallInput_uncompressed_roundtrip [7] (some 5) (by decide) (by decide)
    (by decide)

end Brotli
